import Mathlib

/-!
# Terminal chat client: codec, pumps, router, display and start-up

A shallow embedding of `main.go` (package `main` of the terminal chat client) and of the
parts of the libraries it calls (`encoding/json` for the `Message` struct,
`unicode/utf8`, `strings.Repeat`, the tags `tview` reads in the text of a `TextView`),
followed by theorems about them.

Conventions.

* A Go `string` / `[]byte` is a list of bytes, `Bytes := List Nat`; every byte the
  embedded code produces is below 256.  `len(s)` is `List.length`.
* A Go `rune` is a `Nat`.  The bit operations of `unicode/utf8` are written with
  `/`, `%`, `*`, `+` on `Nat` (`x >> 6` is `x / 64`, `x & 0x3F` is `x % 64`, and
  `a << 6 | b` with `b < 64` is `a * 64 + b`).
* Loops that advance through a byte slice by a variable stride, and the recursive
  descent of the JSON decoder, carry a `fuel` argument; the entry points pass the
  length of the input (plus one), which is enough (`parse_adequate`,
  `parseString_fuel`, `appendStringBody_fuel`, `validLoop_fuel`).
* The library functions follow the sources of Go 1.22; where an earlier release
  differs (`appendString` wrote `\u0008` and `\u000c` for backspace and form feed)
  the bytes decode to the same string.
* Goroutines are embedded as state-passing functions over the shared state `Sys`;
  what the environment supplies to a loop (frames from the connection, results of
  writes, the choice `select` makes among ready cases) is an explicit argument.
  The channels are unbuffered: a sender waits until its value has been received.
-/

namespace ChatClient

/-- A Go string or byte slice: its bytes, in order. -/
abbrev Bytes := List Nat

/-- The code points of a text.  Every string literal of `main.go` and of `encoding/json`
written with `lit` is ASCII, so these are its bytes. -/
def lit (s : String) : Bytes := s.toList.map Char.toNat

/-! ## `unicode/utf8` -/

/-- The constant `utf8.RuneError`, U+FFFD. -/
def RuneError : Nat := 0xFFFD

/-- The constant `utf8.MaxRune`. -/
def MaxRune : Nat := 0x10FFFF

/-- The table `first` of `unicode/utf8` together with `acceptRanges`: for a lead byte,
the size of the sequence it starts and the accepted range of the second byte;
`none` for the entries `xx` (not a lead byte).  ASCII bytes are handled by the caller. -/
def first (p0 : Nat) : Option (Nat × Nat × Nat) :=
  if p0 < 0xC2 then none
  else if p0 ≤ 0xDF then some (2, 0x80, 0xBF)
  else if p0 = 0xE0 then some (3, 0xA0, 0xBF)
  else if p0 ≤ 0xEC then some (3, 0x80, 0xBF)
  else if p0 = 0xED then some (3, 0x80, 0x9F)
  else if p0 ≤ 0xEF then some (3, 0x80, 0xBF)
  else if p0 = 0xF0 then some (4, 0x90, 0xBF)
  else if p0 ≤ 0xF3 then some (4, 0x80, 0xBF)
  else if p0 = 0xF4 then some (4, 0x80, 0x8F)
  else none

/-- The function `utf8.DecodeRune` (and `DecodeRuneInString`): the first rune of `p` and
its width in bytes; `(RuneError, 0)` on empty input and `(RuneError, 1)` on an
invalid encoding. -/
def DecodeRune (p : Bytes) : Nat × Nat :=
  match p with
  | [] => (RuneError, 0)
  | p0 :: t =>
    if p0 < 0x80 then (p0, 1)
    else
      match first p0 with
      | none => (RuneError, 1)
      | some (sz, lo, hi) =>
        match t with
        | [] => (RuneError, 1)
        | b1 :: t1 =>
          if b1 < lo ∨ hi < b1 then (RuneError, 1)
          else if sz ≤ 2 then ((p0 % 32) * 64 + b1 % 64, 2)
          else
            match t1 with
            | [] => (RuneError, 1)
            | b2 :: t2 =>
              if b2 < 0x80 ∨ 0xBF < b2 then (RuneError, 1)
              else if sz ≤ 3 then ((p0 % 16) * 4096 + (b1 % 64) * 64 + b2 % 64, 3)
              else
                match t2 with
                | [] => (RuneError, 1)
                | b3 :: _ =>
                  if b3 < 0x80 ∨ 0xBF < b3 then (RuneError, 1)
                  else ((p0 % 8) * 262144 + (b1 % 64) * 4096 + (b2 % 64) * 64 + b3 % 64, 4)

/-- The function `utf8.AppendRune` / `utf8.EncodeRune`: the UTF-8 encoding of `r`; a
surrogate or a value above `MaxRune` is encoded as `RuneError`. -/
def EncodeRune (r : Nat) : Bytes :=
  if r ≤ 0x7F then [r]
  else if r ≤ 0x7FF then [0xC0 + r / 64, 0x80 + r % 64]
  else if MaxRune < r ∨ (0xD800 ≤ r ∧ r ≤ 0xDFFF) then [0xEF, 0xBF, 0xBD]
  else if r ≤ 0xFFFF then [0xE0 + r / 4096, 0x80 + r / 64 % 64, 0x80 + r % 64]
  else [0xF0 + r / 262144, 0x80 + r / 4096 % 64, 0x80 + r / 64 % 64, 0x80 + r % 64]

/-- The loop of `utf8.ValidString`: no decoding step meets an invalid byte.  The source
repeats the tests of `DecodeRune` on the bytes; here each step calls `DecodeRune`. -/
def validLoop : Nat → Bytes → Bool
  | _, [] => true
  | 0, _ :: _ => false
  | fuel + 1, b :: rest =>
    let rs := DecodeRune (b :: rest)
    if rs.1 = RuneError ∧ rs.2 = 1 then false
    else validLoop fuel ((b :: rest).drop rs.2)

/-- The function `utf8.ValidString` (and `utf8.Valid`): `s` is valid UTF-8. -/
def ValidString (s : Bytes) : Bool := validLoop s.length s

/-- The UTF-8 bytes of a text given as Unicode scalar values (a Lean `String`). -/
def utf8 (s : String) : Bytes := (lit s).flatMap EncodeRune

/-! ## `encoding/json`: encoding -/

/-- The constant `hex` of `encoding/json`: the lower-case hexadecimal digit of `n < 16`. -/
def hex (n : Nat) : Nat := if n < 10 then 0x30 + n else 0x61 + (n - 10)

/-- The table `htmlSafeSet` of `encoding/json`: the ASCII bytes that are copied into a
JSON string unescaped when HTML escaping is on (the setting `json.Marshal` uses). -/
def htmlSafeSet (b : Nat) : Bool :=
  0x20 ≤ b && b < 0x80 && b != 0x22 && b != 0x26 && b != 0x3C && b != 0x3E && b != 0x5C

/-- The escape `appendString` writes for an ASCII byte that is not in `htmlSafeSet`: a
two-character escape for the quote, the backslash and five control characters,
`\u00XX` for the other control characters and for `<`, `>`, `&`. -/
def escapeByte (b : Nat) : Bytes :=
  if b = 0x5C ∨ b = 0x22 then [0x5C, b]
  else if b = 0x08 then [0x5C, 0x62]
  else if b = 0x0C then [0x5C, 0x66]
  else if b = 0x0A then [0x5C, 0x6E]
  else if b = 0x0D then [0x5C, 0x72]
  else if b = 0x09 then [0x5C, 0x74]
  else [0x5C, 0x75, 0x30, 0x30, hex (b / 16), hex (b % 16)]

/-- The loop of `appendString` of `encoding/json` (with `escapeHTML = true`): the bytes
written between the two quotes for the source bytes `src`. -/
def appendStringBody : Nat → Bytes → Bytes
  | 0, _ => []
  | _, [] => []
  | fuel + 1, b :: rest =>
    if b < 0x80 then
      if htmlSafeSet b then b :: appendStringBody fuel rest
      else escapeByte b ++ appendStringBody fuel rest
    else
      let cs := DecodeRune (b :: rest)
      if cs.1 = RuneError ∧ cs.2 = 1 then
        lit "\\ufffd" ++ appendStringBody fuel rest
      else if cs.1 = 0x2028 ∨ cs.1 = 0x2029 then
        lit "\\u202" ++ hex (cs.1 % 16) :: appendStringBody fuel ((b :: rest).drop cs.2)
      else
        (b :: rest).take cs.2 ++ appendStringBody fuel ((b :: rest).drop cs.2)

/-- The function `appendString` of `encoding/json`: `src` as a quoted JSON string. -/
def appendString (src : Bytes) : Bytes :=
  0x22 :: appendStringBody src.length src ++ [0x22]

/-- The wire envelope `Message` of `main.go`, with the JSON names of its fields
`id`, `type`, `name`, `room`, `content` (`Type_` is the Go field `Type`). -/
structure Message where
  ID : Bytes
  Type_ : Bytes
  Name : Bytes
  Room : Bytes
  Content : Bytes
  deriving DecidableEq, Repr

/-- The zero value of `Message` (`var msg Message`). -/
def Message.zero : Message := ⟨[], [], [], [], []⟩

/-- The function `json.Marshal` at type `Message`: the object with the five fields in
declaration order.  For a struct of plain strings it returns no error. -/
def Marshal (m : Message) : Bytes :=
  lit "\x7b\"id\":" ++ appendString m.ID ++
  lit ",\"type\":" ++ appendString m.Type_ ++
  lit ",\"name\":" ++ appendString m.Name ++
  lit ",\"room\":" ++ appendString m.Room ++
  lit ",\"content\":" ++ appendString m.Content ++ lit "\x7d"

/-! ## `encoding/json`: decoding -/

/-- A JSON value as the scanner of `encoding/json` delimits it.  A number keeps no value:
no field of `Message` can store one. -/
inductive JValue where
  | null
  | bool (b : Bool)
  | number
  | string (s : Bytes)
  | array (elems : List JValue)
  | object (members : List (Bytes × JValue))

/-- The constant `maxNestingDepth` of the scanner. -/
def maxNestingDepth : Nat := 10000

/-- The function `isSpace` of the scanner. -/
def isSpace (c : Nat) : Bool := c = 0x20 || c = 0x09 || c = 0x0D || c = 0x0A

/-- Skipping the white space the scanner allows before and after a token. -/
def skipSpace : Bytes → Bytes
  | [] => []
  | c :: rest => if isSpace c then skipSpace rest else c :: rest

/-- The value of a hexadecimal digit, as in `getu4`; `none` for any other byte. -/
def hexVal (c : Nat) : Option Nat :=
  if 0x30 ≤ c ∧ c ≤ 0x39 then some (c - 0x30)
  else if 0x61 ≤ c ∧ c ≤ 0x66 then some (c - 0x61 + 10)
  else if 0x41 ≤ c ∧ c ≤ 0x46 then some (c - 0x41 + 10)
  else none

/-- The function `getu4` of `encoding/json`: the number written by a leading
`\uXXXX`, or `none` (the source returns `-1`) when `s` does not start with one. -/
def getu4 (s : Bytes) : Option Nat :=
  match s with
  | 0x5C :: 0x75 :: a :: b :: c :: d :: _ =>
    match hexVal a, hexVal b, hexVal c, hexVal d with
    | some x, some y, some z, some w => some (x * 4096 + y * 256 + z * 16 + w)
    | _, _, _, _ => none
  | _ => none

/-- The function `utf16.DecodeRune`: the code point of a surrogate pair, `RuneError`
(U+FFFD) when the two halves do not form one; `none` stands for the `-1` of `getu4`. -/
def utf16DecodeRune (r1 : Nat) (r2 : Option Nat) : Nat :=
  match r2 with
  | some r2 =>
    if 0xD800 ≤ r1 ∧ r1 < 0xDC00 ∧ 0xDC00 ≤ r2 ∧ r2 < 0xE000 then
      (r1 - 0xD800) * 1024 + (r2 - 0xDC00) + 0x10000
    else RuneError
  | none => RuneError

/-- The character an escape letter stands for in `unquoteBytes`, for the letters the
scanner admits after a backslash (other than `u`). -/
def unescape (c : Nat) : Option Nat :=
  if c = 0x22 ∨ c = 0x5C ∨ c = 0x2F then some c
  else if c = 0x62 then some 0x08
  else if c = 0x66 then some 0x0C
  else if c = 0x6E then some 0x0A
  else if c = 0x72 then some 0x0D
  else if c = 0x74 then some 0x09
  else none

/-- A string literal after its opening quote: the scanner states `stateInString`,
`stateInStringEsc`, `stateInStringEscU...` and the conversion `unquoteBytes` in one
pass.  Returns the unquoted bytes (appended to `acc`) and the input after the closing
quote; `none` is a syntax error. -/
def parseString : Nat → Bytes → Bytes → Option (Bytes × Bytes)
  | 0, _, _ => none
  | _, [], _ => none
  | fuel + 1, c :: rest, acc =>
    if c = 0x22 then some (acc, rest)
    else if c = 0x5C then
      match rest with
      | [] => none
      | e :: rest1 =>
        if e = 0x75 then
          match getu4 (c :: rest) with
          | none => none
          | some rr =>
            if 0xD800 ≤ rr ∧ rr < 0xE000 then
              let dec := utf16DecodeRune rr (getu4 (rest1.drop 4))
              if dec ≠ RuneError then
                parseString fuel (rest1.drop 10) (acc ++ EncodeRune dec)
              else parseString fuel (rest1.drop 4) (acc ++ EncodeRune RuneError)
            else parseString fuel (rest1.drop 4) (acc ++ EncodeRune rr)
        else
          match unescape e with
          | none => none
          | some x => parseString fuel rest1 (acc ++ [x])
    else if c < 0x20 then none
    else if c < 0x80 then parseString fuel rest (acc ++ [c])
    else
      let rs := DecodeRune (c :: rest)
      parseString fuel ((c :: rest).drop rs.2) (acc ++ EncodeRune rs.1)

/-- A byte that is a decimal digit. -/
def isDigit (c : Nat) : Bool := 0x30 ≤ c && c ≤ 0x39

/-- Skipping a run of digits (the scanner states `state1`, `stateDot0`, `stateE0`). -/
def skipDigits : Bytes → Bytes
  | [] => []
  | c :: rest => if isDigit c then skipDigits rest else c :: rest

/-- The optional exponent of a number (`stateE`, `stateESign`, `stateE0`). -/
def parseExp (bs : Bytes) : Option Bytes :=
  match bs with
  | e :: rest =>
    if e = 0x65 ∨ e = 0x45 then
      match rest with
      | s :: rest1 =>
        if s = 0x2B ∨ s = 0x2D then
          match rest1 with
          | d :: rest2 => if isDigit d then some (skipDigits rest2) else none
          | [] => none
        else if isDigit s then some (skipDigits rest1) else none
      | [] => none
    else some bs
  | [] => some bs

/-- The optional fraction of a number, then its exponent (`stateDot`, `stateDot0`). -/
def parseFrac (bs : Bytes) : Option Bytes :=
  match bs with
  | p :: rest =>
    if p = 0x2E then
      match rest with
      | d :: rest1 => if isDigit d then parseExp (skipDigits rest1) else none
      | [] => none
    else parseExp bs
  | [] => some bs

/-- A number (`stateNeg`, `state0`, `state1`): the input after it. -/
def parseNumber (bs : Bytes) : Option Bytes :=
  let digitsFrom (bs : Bytes) : Option Bytes :=
    match bs with
    | c :: rest =>
      if c = 0x30 then parseFrac rest
      else if 0x31 ≤ c ∧ c ≤ 0x39 then parseFrac (skipDigits rest)
      else none
    | [] => none
  match bs with
  | c :: rest => if c = 0x2D then digitsFrom rest else digitsFrom bs
  | [] => none

/-- The input after the literal `word`, when `bs` starts with it. -/
def expect (word : Bytes) (bs : Bytes) : Option Bytes :=
  if bs.take word.length = word then some (bs.drop word.length) else none

mutual
/-- One JSON value, after optional white space: the value and the input after it.
An opening brace or bracket that makes the nesting deeper than `maxNestingDepth`
is a syntax error, as in `pushParseState`. -/
def parseValue : Nat → Nat → Bytes → Option (JValue × Bytes)
  | 0, _, _ => none
  | fuel + 1, depth, bs =>
    match skipSpace bs with
    | [] => none
    | c :: rest =>
      if c = 0x7B then
        if maxNestingDepth ≤ depth then none
        else
          match skipSpace rest with
          | [] => none
          | d :: rest1 =>
            if d = 0x7D then some (JValue.object [], rest1)
            else
              match parseMembers fuel (depth + 1) (d :: rest1) with
              | some (kvs, r) => some (JValue.object kvs, r)
              | none => none
      else if c = 0x5B then
        if maxNestingDepth ≤ depth then none
        else
          match skipSpace rest with
          | [] => none
          | d :: rest1 =>
            if d = 0x5D then some (JValue.array [], rest1)
            else
              match parseElements fuel (depth + 1) (d :: rest1) with
              | some (vs, r) => some (JValue.array vs, r)
              | none => none
      else if c = 0x22 then
        match parseString (rest.length + 1) rest [] with
        | some (s, r) => some (JValue.string s, r)
        | none => none
      else if c = 0x74 then (expect (lit "rue") rest).map (fun r => (JValue.bool true, r))
      else if c = 0x66 then (expect (lit "alse") rest).map (fun r => (JValue.bool false, r))
      else if c = 0x6E then (expect (lit "ull") rest).map (fun r => (JValue.null, r))
      else (parseNumber (c :: rest)).map (fun r => (JValue.number, r))
/-- The members of an object from the opening quote of a key up to and including the
closing brace. -/
def parseMembers : Nat → Nat → Bytes → Option (List (Bytes × JValue) × Bytes)
  | 0, _, _ => none
  | fuel + 1, depth, bs =>
    match bs with
    | [] => none
    | q :: rest =>
      if q = 0x22 then
        match parseString (rest.length + 1) rest [] with
        | none => none
        | some (key, r1) =>
          match skipSpace r1 with
          | [] => none
          | colon :: r2 =>
            if colon = 0x3A then
              match parseValue fuel depth r2 with
              | none => none
              | some (v, r3) =>
                match skipSpace r3 with
                | [] => none
                | sep :: r4 =>
                  if sep = 0x2C then
                    match parseMembers fuel depth (skipSpace r4) with
                    | some (kvs, r) => some ((key, v) :: kvs, r)
                    | none => none
                  else if sep = 0x7D then some ([(key, v)], r4)
                  else none
            else none
      else none
/-- The elements of an array from the first byte of an element up to and including the
closing bracket. -/
def parseElements : Nat → Nat → Bytes → Option (List JValue × Bytes)
  | 0, _, _ => none
  | fuel + 1, depth, bs =>
    match parseValue fuel depth bs with
    | none => none
    | some (v, r1) =>
      match skipSpace r1 with
      | [] => none
      | sep :: r2 =>
        if sep = 0x2C then
          match parseElements fuel depth r2 with
          | some (vs, r) => some (v :: vs, r)
          | none => none
        else if sep = 0x5D then some ([v], r2)
        else none
end

/-- The function `checkValid` together with the delimiting of values: the whole of `data`
is one JSON value surrounded by optional white space, or `none` (a `SyntaxError`). -/
def parseJSON (data : Bytes) : Option JValue :=
  match parseValue (data.length + 1) 0 data with
  | some (v, rest) => if skipSpace rest = [] then some v else none
  | none => none

/-- The errors `json.Unmarshal` returns. -/
inductive JSONError where
  | SyntaxError
  | UnmarshalTypeError
  deriving DecidableEq, Repr

/-- The five fields of `Message`. -/
inductive Field where
  | ID | Type_ | Name | Room | Content
  deriving DecidableEq, Repr

/-- The JSON name a struct tag gives a field. -/
def Field.jsonName : Field → Bytes
  | .ID => lit "id"
  | .Type_ => lit "type"
  | .Name => lit "name"
  | .Room => lit "room"
  | .Content => lit "content"

/-- The fields in declaration order. -/
def Field.all : List Field := [.ID, .Type_, .Name, .Room, .Content]

/-- Reading a field. -/
def Message.get (m : Message) : Field → Bytes
  | .ID => m.ID
  | .Type_ => m.Type_
  | .Name => m.Name
  | .Room => m.Room
  | .Content => m.Content

/-- Assigning a field (`v.SetString`). -/
def Message.set (m : Message) (f : Field) (s : Bytes) : Message :=
  match f with
  | .ID => { m with ID := s }
  | .Type_ => { m with Type_ := s }
  | .Name => { m with Name := s }
  | .Room => { m with Room := s }
  | .Content => { m with Content := s }

/-- The function `foldName` of `encoding/json` on ASCII letters: lower case to upper case.
The names of the five fields contain neither `k` nor `s`, the only ASCII letters that a
non-ASCII rune folds onto, so bytes from `0x80` up are left as they are: a key
holding one matches no field either way. -/
def foldName (key : Bytes) : Bytes :=
  key.map (fun c => if 0x61 ≤ c ∧ c ≤ 0x7A then c - 0x20 else c)

/-- The field an object key addresses: an exact match of the JSON name is preferred, a
match up to case is accepted. -/
def findField (key : Bytes) : Option Field :=
  match Field.all.find? (fun f => f.jsonName = key) with
  | some f => some f
  | none => Field.all.find? (fun f => foldName f.jsonName = foldName key)

/-- The method `literalStore`, and `array`/`object` with a string destination, for one
member whose key addresses the field `f`: a string is stored, `null` leaves the field
as it is, a value of any other kind is an `UnmarshalTypeError` and leaves the field
as it is.  The first error is kept (`saveError`) and decoding goes on. -/
def storeMember (st : Message × Option JSONError) (f : Field) (v : JValue) :
    Message × Option JSONError :=
  match v with
  | JValue.string s => (st.1.set f s, st.2)
  | JValue.null => st
  | _ => (st.1, st.2.orElse (fun _ => some JSONError.UnmarshalTypeError))

/-- The method `object` of the decoder with a `Message` destination: the members in
order; a key that addresses no field is skipped. -/
def decodeMembers (st : Message × Option JSONError) :
    List (Bytes × JValue) → Message × Option JSONError
  | [] => st
  | (key, v) :: rest =>
    match findField key with
    | some f => decodeMembers (storeMember st f v) rest
    | none => decodeMembers st rest

/-- The method `value` of the decoder with a `Message` destination: an object is decoded
member by member, `null` leaves the destination as it is, any other value is an
`UnmarshalTypeError`. -/
def decodeValue (m : Message) : JValue → Message × Option JSONError
  | JValue.object kvs => decodeMembers (m, none) kvs
  | JValue.null => (m, none)
  | _ => (m, some JSONError.UnmarshalTypeError)

/-- The call `json.Unmarshal(data, &msg)`: the value of `msg` after the call and the error
returned.  On a syntax error `msg` is not touched. -/
def Unmarshal (data : Bytes) (msg : Message) : Message × Option JSONError :=
  match parseJSON data with
  | none => (msg, some JSONError.SyntaxError)
  | some v => decodeValue msg v

/-! ## `main.go`: shared state -/

/-- The struct `User`. -/
structure User where
  ID : Bytes
  Name : Bytes
  Room : Bytes
  deriving DecidableEq, Repr

/-- The lines the program writes with `log.Println`, by their fixed first argument. -/
inductive LogLine where
  | dialError
  | readError
  | jsonUnmarshallingError
  | writeError
  | jsonMarshallingError
  | newClientError
  | connectedToRoom (room : Bytes)
  | pressCtrlC
  deriving DecidableEq, Repr

/-- What the goroutines of one session share: the fields of `Client` and `UI` that the
loops read or change, and the log.  The channels are unbuffered: a channel is kept as
the list of values offered on it and not yet received, oldest first, and a sender waits
until its value has been received.  The router and the done function of the input
field are embedded so (`handleMessages` does not go on while its frame is in `send`,
`inputDone` handles no key while a line is in `sendMessage`).  For `receive` the list
also stands for the frames that wait in the connection behind a blocked send of
`readPump`: they reach the router in the same order.  `done` records whether the
channel `done` has been closed. -/
structure Sys where
  /-- Whether `c.done` is closed (the shutdown signal has fired). -/
  done : Bool
  /-- Whether `c.conn.Close()` has been called. -/
  connClosed : Bool
  /-- The frames handed to `c.conn.WriteMessage` with success, oldest first. -/
  wire : List Bytes
  /-- The channel `c.send`. -/
  send : List Bytes
  /-- The channel `c.receive`. -/
  receive : List Message
  /-- The channel `ui.sendMessage`. -/
  sendMessage : List Bytes
  /-- The text of `ui.inputField`. -/
  inputText : Bytes
  /-- Everything written to `ui.messagesView`. -/
  view : Bytes
  /-- The lines logged. -/
  log : List LogLine
  deriving DecidableEq, Repr

/-- The state `NewClient` and `NewUI` set up: open connection, empty channels, `done` open. -/
def Sys.init : Sys :=
  { done := false, connClosed := false, wire := [], send := [], receive := [],
    sendMessage := [], inputText := [], view := [], log := [] }

/-- How far a loop has got on the input it was given. -/
inductive Status where
  /-- The function returned. -/
  | returned
  /-- The loop is blocked: nothing it waits for is available. -/
  | blocked
  /-- The input given to the embedding ended while the loop could go on. -/
  | running
  deriving DecidableEq, Repr

/-- The choice `select` makes: among the cases that are ready, in source order, one is
taken; `pick` stands for the pseudo-random number of the runtime.  `none` when no case
is ready (the goroutine blocks). -/
def selectCase {α : Type} (ready : List α) (pick : Nat) : Option α :=
  ready.get? (pick % ready.length)

/-! ## `main.go`: the pumps -/

/-- What `c.conn.ReadMessage()` returns: a frame, or an error (read error or connection
closed). -/
inductive ReadResult where
  | frame (message : Bytes)
  | err
  deriving DecidableEq, Repr

/-- The method `Client.readPump`, run on the successive results of `ReadMessage`.
A read error is logged and ends the loop; the deferred `c.conn.Close()` then runs.
A frame is unmarshalled into a fresh `msg`; an unmarshalling error is logged; then
`msg` is sent on `c.receive`. -/
def readPump : List ReadResult → Sys → Sys × Status
  | [], s => (s, Status.blocked)
  | ReadResult.err :: _, s =>
    ({ s with log := s.log ++ [LogLine.readError], connClosed := true }, Status.returned)
  | ReadResult.frame message :: rest, s =>
    let r := Unmarshal message Message.zero
    let s1 := if r.2.isSome then { s with log := s.log ++ [LogLine.jsonUnmarshallingError] } else s
    readPump rest { s1 with receive := s1.receive ++ [r.1] }

/-- The cases of the `select` in `writePump`. -/
inductive WriteCase where
  | message
  | done
  deriving DecidableEq, Repr

/-- The cases of the `select` in `writePump` that are ready in `s`, in source order. -/
def writeReady (s : Sys) : List WriteCase :=
  (if s.send ≠ [] then [WriteCase.message] else []) ++ (if s.done then [WriteCase.done] else [])

/-- The method `Client.writePump`.  Each iteration is given the pick of its `select` and
whether `WriteMessage` succeeds.  A write error is logged and the function returns; the
`done` case returns. -/
def writePump : List (Nat × Bool) → Sys → Sys × Status
  | [], s => (s, Status.running)
  | (pick, writeOk) :: rest, s =>
    match selectCase (writeReady s) pick with
    | none => (s, Status.blocked)
    | some WriteCase.done => (s, Status.returned)
    | some WriteCase.message =>
      match s.send with
      | [] => (s, Status.blocked)
      | message :: queue =>
        if writeOk then writePump rest { s with send := queue, wire := s.wire ++ [message] }
        else ({ s with send := queue, log := s.log ++ [LogLine.writeError] }, Status.returned)

/-! ## `main.go`: the user interface -/

/-- The keys with which `tview` calls the done function of an input field. -/
inductive Key where
  | KeyEnter
  | KeyEscape
  | KeyTab
  | KeyBacktab
  deriving DecidableEq, Repr

/-- The function passed to `inputField.SetDoneFunc` in `NewUI`, up to its send: on Enter
with a non-empty text the line is echoed in the view and offered on `ui.sendMessage`.
The send blocks the event loop of the user interface until the router has received
the line; the rest of the function (`SetText("")`, `ScrollToEnd`) runs then, see
`handleMessages`.  While an earlier line is still on `ui.sendMessage` the event loop
is inside that send and handles no key. -/
def inputDone (key : Key) (s : Sys) : Sys :=
  if s.sendMessage ≠ [] then s
  else if key = Key.KeyEnter then
    let message := s.inputText
    if message ≠ [] then
      { s with view := s.view ++ (lit "[red]You: [white]" ++ message ++ lit "\n"),
               sendMessage := s.sendMessage ++ [message] }
    else s
  else s

/-- The bytes `UI.displayMessage` writes to the messages view: the `switch msg.Type` with
the format strings `"[yellow]%s\n"`, `"[green]%s: [white]%s\n"`, `"[white]%s\n"`. -/
def displayWritten (msg : Message) : Bytes :=
  if msg.Type_ = lit "server_message" then
    lit "[yellow]" ++ msg.Content ++ lit "\n"
  else if msg.Type_ = lit "user_message" then
    lit "[green]" ++ msg.Name ++ lit ": [white]" ++ msg.Content ++ lit "\n"
  else
    lit "[white]" ++ msg.Content ++ lit "\n"

/-- The method `UI.displayMessage`: the update queued with `QueueUpdateDraw`, applied.
The update is taken as applied when it is queued: the event loop of `tview`, which
runs the queued updates, is not embedded. -/
def displayMessage (msg : Message) (s : Sys) : Sys :=
  { s with view := s.view ++ displayWritten msg }

/-! ## `tview`: the tags in the text of a `TextView`

`NewUI` builds the messages view with `SetDynamicColors(true)` and `SetRegions(true)`:
in everything written to it, `tview` takes colour tags and region tags out of the text
and turns an escaped tag into the tag it stands for.  The definitions follow the
regular expressions of `tview` (`util.go`) and its `decomposeString`:

* `colorPattern`:
  `\[([a-zA-Z]+|#[0-9a-zA-Z]{6}|\-)?(:([a-zA-Z]+|#[0-9a-zA-Z]{6}|\-)?(:([lbidrus]+|\-)?)?)?\]`,
  a match of two bytes (`[]`) not being a tag;
* `regionPattern`: `\["([a-zA-Z0-9_,;: \-\.]*)"\]`;
* `escapePattern`: `\[([a-zA-Z0-9_,;: \-\."#]+)\[(\[*)\]`, replaced by `[$1$2]`.

No pattern admits `[` or `]` inside a tag, so a tag that starts at a `[` ends at the
first `]` after it.  Later releases of `tview` read the same tags with a parser
written by hand and admit a fourth field in a colour tag.  How the view lays the text
out (wrapping of lines, tab stops) is not embedded. -/

/-- A byte of `[a-zA-Z]`. -/
def isLetter (c : Nat) : Bool := (0x41 ≤ c && c ≤ 0x5A) || (0x61 ≤ c && c ≤ 0x7A)

/-- A byte of `[0-9a-zA-Z]`. -/
def isAlnum (c : Nat) : Bool := isLetter c || isDigit c

/-- A colour field that is not empty: `[a-zA-Z]+|#[0-9a-zA-Z]{6}|\-`. -/
def isColor (f : Bytes) : Bool :=
  f == [0x2D] || (!f.isEmpty && f.all isLetter) ||
  (match f with
   | 0x23 :: digits => digits.length == 6 && digits.all isAlnum
   | _ => false)

/-- A flags field that is not empty: `[lbidrus]+|\-`. -/
def isFlags (f : Bytes) : Bool :=
  f == [0x2D] || (!f.isEmpty && f.all (fun c => (lit "lbidrus").contains c))

/-- The fields of a tag body: the body cut at its colons. -/
def splitColon : Bytes → List Bytes
  | [] => [[]]
  | c :: rest =>
    if c = 0x3A then [] :: splitColon rest
    else
      match splitColon rest with
      | [] => [[c]]
      | f :: fs => (c :: f) :: fs

/-- The text between `[` and `]` is the body of a colour tag: one to three fields, each
empty or well formed, the whole not empty. -/
def isColorTag (body : Bytes) : Bool :=
  !body.isEmpty &&
  (match splitColon body with
   | [fg] => fg.isEmpty || isColor fg
   | [fg, bg] => (fg.isEmpty || isColor fg) && (bg.isEmpty || isColor bg)
   | [fg, bg, flags] =>
     (fg.isEmpty || isColor fg) && (bg.isEmpty || isColor bg) && (flags.isEmpty || isFlags flags)
   | _ => false)

/-- A byte of `[a-zA-Z0-9_,;: \-\.]`. -/
def isRegionChar (c : Nat) : Bool := isAlnum c || (lit "_,;: -.").contains c

/-- The text between `[` and `]` is the body of a region tag: an identifier between
double quotes. -/
def isRegionTag (body : Bytes) : Bool :=
  match body with
  | 0x22 :: rest =>
    (match rest.reverse with
     | 0x22 :: idReversed => idReversed.all isRegionChar
     | _ => false)
  | _ => false

/-- The text with its colour tags and region tags taken out (`decomposeString`, the part
that removes the tags).  The first argument counts the bytes of a recognised tag that
are still to be passed over. -/
def stripTags : Nat → Bytes → Bytes
  | _, [] => []
  | skip + 1, _ :: rest => stripTags skip rest
  | 0, c :: rest =>
    if c = 0x5B then
      let body := rest.takeWhile (fun b => b != 0x5D)
      if body.length < rest.length ∧ (isColorTag body ∨ isRegionTag body) then
        stripTags (body.length + 1) rest
      else c :: stripTags 0 rest
    else c :: stripTags 0 rest

/-- A byte of `[a-zA-Z0-9_,;: \-\."#]`. -/
def isEscapeChar (c : Nat) : Bool := isRegionChar c || c = 0x22 || c = 0x23

/-- The text with every escaped tag replaced by the tag it stands for (`escapePattern`
replaced by `[$1$2]`): of the opening brackets before the closing one, the first is
dropped.  The first argument counts the bytes of a match still to be passed over. -/
def unescapeTags : Nat → Bytes → Bytes
  | _, [] => []
  | skip + 1, _ :: rest => unescapeTags skip rest
  | 0, c :: rest =>
    if c = 0x5B then
      let run := rest.takeWhile isEscapeChar
      match rest.drop run.length with
      | [] => c :: unescapeTags 0 rest
      | o :: rest1 =>
        let more := rest1.takeWhile (fun b => b == 0x5B)
        match rest1.drop more.length with
        | [] => c :: unescapeTags 0 rest
        | e :: _ =>
          if o = 0x5B ∧ e = 0x5D ∧ run ≠ [] then
            (0x5B :: run ++ more ++ [0x5D]) ++ unescapeTags (run.length + 1 + more.length + 1) rest
          else c :: unescapeTags 0 rest
    else c :: unescapeTags 0 rest

/-- The text a `TextView` with dynamic colours and regions shows for the bytes written to
it: `decomposeString(text, true, true)`, the stripped string. -/
def TextView.shown (view : Bytes) : Bytes := unescapeTags 0 (stripTags 0 view)

/-! ## `main.go`: the router -/

/-- The cases of the `select` in `handleMessages`. -/
inductive RouterCase where
  | receive
  | sendMessage
  | done
  deriving DecidableEq, Repr

/-- The cases of the `select` in `handleMessages` that are ready in `s`, in source order. -/
def routerReady (s : Sys) : List RouterCase :=
  (if s.receive ≠ [] then [RouterCase.receive] else []) ++
  (if s.sendMessage ≠ [] then [RouterCase.sendMessage] else []) ++
  (if s.done then [RouterCase.done] else [])

/-- The message `handleMessages` builds for a submitted text. -/
def outgoing (user : User) (text : Bytes) : Message :=
  { ID := user.ID, Type_ := lit "user_message", Name := user.Name, Room := user.Room,
    Content := text }

/-- The function `handleMessages`.  Each iteration is given the pick of its `select`.
The send `client.send <- jsonMessage` is on an unbuffered channel: the router waits in
it until `writePump` has received the frame, so it does not go on while a frame is
in `send`; if `writePump` has returned, it waits there for good.  When the router
receives a line, the send of the done function of the input field is over and that
function clears the field.  `json.Marshal` returns no error for a `Message`, so the
branch that logs one is never taken. -/
def handleMessages (user : User) : List Nat → Sys → Sys × Status
  | picks, s =>
    if s.send ≠ [] then (s, Status.blocked)
    else
      match picks with
      | [] => (s, Status.running)
      | pick :: rest =>
        match selectCase (routerReady s) pick with
        | none => (s, Status.blocked)
        | some RouterCase.done => (s, Status.returned)
        | some RouterCase.receive =>
          match s.receive with
          | [] => (s, Status.blocked)
          | msg :: queue =>
            handleMessages user rest (displayMessage msg { s with receive := queue })
        | some RouterCase.sendMessage =>
          match s.sendMessage with
          | [] => (s, Status.blocked)
          | text :: queue =>
            let jsonMessage := Marshal (outgoing user text)
            handleMessages user rest
              { s with sendMessage := queue, inputText := [], send := s.send ++ [jsonMessage] }

/-! ## `main.go`: start-up -/

/-- The struct `url.URL`, the fields `NewClient` sets. -/
structure URL where
  Scheme : Bytes
  Host : Bytes
  Path : Bytes
  deriving DecidableEq, Repr

/-- The result of `NewClient`: the URL it dialed, the lines it logged, and the client
(`none` is the `nil` returned together with an error). -/
structure Dialed where
  uri : URL
  log : List LogLine
  client : Option Sys
  deriving DecidableEq, Repr

/-- The function `NewClient`; `server` is the value of the flag `-server`, `dial` tells
whether `websocket.DefaultDialer.Dial` succeeds on a URL. -/
def NewClient (server : Bytes) (addr : Bytes) (dial : URL → Bool) : Dialed :=
  let uri : URL :=
    if server = lit "render" then
      { Scheme := lit "wss", Host := lit "terminal-chat-server-golang.onrender.com",
        Path := lit "/ws" }
    else { Scheme := lit "ws", Host := addr, Path := lit "/" }
  if dial uri then { uri := uri, log := [], client := some Sys.init }
  else { uri := uri, log := [LogLine.dialError], client := none }

/-- The steps of `main` after the flags are parsed, in the order they are taken. -/
inductive MainStep where
  | printHelp
  | getUserInfo
  | newClient
  | log (line : LogLine)
  | deferConnClose
  | newUI
  | goClientRun
  | goUIRun
  | handleMessages
  deriving DecidableEq, Repr

/-- How `main` ends. -/
inductive Ending where
  /-- A call of `os.Exit` or the return of `main`, with the exit code. -/
  | exit (code : Nat)
  /-- A run-time panic on the dereference of a nil pointer, the named variable of `main`;
  the process ends with status 2. -/
  | nilDereference (pointer : Bytes)
  /-- The function `main` has entered `handleMessages`. -/
  | routing
  deriving DecidableEq, Repr

/-- The exit code of the process for an ending, when the process has ended. -/
def Ending.exitCode : Ending → Option Nat
  | Ending.exit code => some code
  | Ending.nilDereference _ => some 2
  | Ending.routing => none

/-- The function `main` up to its call of `handleMessages`.  `help` is the flag `-h`,
`user` the result of `getUserInfo` (`none` is `nil`).  The statement
`defer client.conn.Close()` evaluates `client.conn`, and the call of `log.Println`
after `NewUI` evaluates `user.Room`: each dereferences its pointer. -/
def main (help : Bool) (user : Option User) (server addr : Bytes) (dial : URL → Bool) :
    List MainStep × Ending :=
  if help then ([MainStep.printHelp], Ending.exit 0)
  else
    let d := NewClient server addr dial
    let steps1 := [MainStep.getUserInfo, MainStep.newClient] ++ d.log.map MainStep.log
    let steps2 := if d.client.isNone then steps1 ++ [MainStep.log LogLine.newClientError] else steps1
    match d.client with
    | none => (steps2, Ending.nilDereference (lit "client"))
    | some _ =>
      match user with
      | none =>
        (steps2 ++ [MainStep.deferConnClose, MainStep.newUI], Ending.nilDereference (lit "user"))
      | some u =>
        (steps2 ++ [MainStep.deferConnClose, MainStep.newUI,
          MainStep.log (LogLine.connectedToRoom u.Room), MainStep.log LogLine.pressCtrlC,
          MainStep.goClientRun, MainStep.goUIRun, MainStep.handleMessages], Ending.routing)

/-! ## `main.go`: `printCentered` -/

/-- A value of Go's `int` (64 bits, two's complement) from the exact result of an
operation. -/
def wrapInt (x : Int) : Int := (x + 2 ^ 63) % 2 ^ 64 - 2 ^ 63

/-- The constant `maxInt` of package `strings`: the largest `int`. -/
def maxInt : Nat := 2 ^ 63 - 1

/-- The constant `maxAlloc` of the Go runtime where the heap has 48 address bits
(linux/amd64 among others; it is smaller elsewhere): `makeslice` panics on a longer
slice. -/
def maxAlloc : Nat := 2 ^ 48

/-- The function `strings.Repeat`.  `none` is a fault: the panic on a negative count, the
panic on an output length that overflows `int`, the panic of `makeslice` in
`Builder.Grow` on a length above `maxAlloc`, or the run having no memory for the
output.  `room` is the length of the longest string the run can still allocate; it
depends on the machine. -/
def stringsRepeat (room : Nat) (s : Bytes) (count : Int) : Option Bytes :=
  if count = 0 then some []
  else if count = 1 then some s
  else if count < 0 then none
  else if maxInt < s.length * count.toNat then none
  else if s.length = 0 then some []
  else if maxAlloc < s.length * count.toNat then none
  else if room < s.length * count.toNat then none
  else some (List.replicate count.toNat s).flatten

/-- The local `padding` of `printCentered`: Go's `/` truncates toward zero. -/
def padding (message : Bytes) (totalWidth : Int) : Int :=
  Int.tdiv (wrapInt (totalWidth - message.length)) 2

/-- The function `printCentered`: the bytes printed, `none` when the call faults, in
`strings.Repeat` or for want of memory for the string to print. -/
def printCentered (room : Nat) (message : Bytes) (totalWidth : Int) : Option Bytes :=
  match stringsRepeat room (lit " ") (padding message totalWidth) with
  | none => none
  | some spaces => if room < (spaces ++ message).length then none else some (spaces ++ message)

/-! ## Notions used in the statements -/

/-- A Unicode scalar value: a code point that is not a surrogate.  The runes of valid
UTF-8 text are exactly these. -/
def Scalar (n : Nat) : Prop := n < 0xD800 ∨ (0xDFFF < n ∧ n < 0x110000)

/-- What `appendString` writes for one rune `n` of valid source text: the byte or its
escape below `0x80`, an escape for U+2028 and U+2029, the UTF-8 bytes otherwise. -/
def escRune (n : Nat) : Bytes :=
  if n < 0x80 then (if htmlSafeSet n then [n] else escapeByte n)
  else if n = 0x2028 ∨ n = 0x2029 then lit "\\u202" ++ [hex (n % 16)]
  else EncodeRune n

/-- Text without an opening square bracket: it holds no tag and no escaped tag. -/
def Plain (text : Bytes) : Prop := ∀ b ∈ text, b ≠ 0x5B

/-- A value that can be stored in, or leaves alone, a string field. -/
def JValue.isStringOrNull : JValue → Bool
  | JValue.string _ => true
  | JValue.null => true
  | _ => false

/-! ## Lemmas on `unicode/utf8` and `encoding/json` -/

theorem char_scalar (c : Char) : Scalar c.toNat := c.valid

theorem DecodeRune_two (p0 b1 : Nat) (rest : Bytes) (h0 : 0xC2 ≤ p0) (h0' : p0 ≤ 0xDF)
    (h1 : 0x80 ≤ b1) (h1' : b1 ≤ 0xBF) :
    DecodeRune (p0 :: b1 :: rest) = ((p0 % 32) * 64 + b1 % 64, 2) := by
  have hf : first p0 = some (2, 0x80, 0xBF) := by
    unfold first
    rw [if_neg (by omega), if_pos h0']
  simp only [DecodeRune]
  rw [if_neg (by omega)]
  simp only [hf]
  rw [if_neg (by omega), if_pos (by omega)]

theorem DecodeRune_three (p0 b1 b2 lo hi : Nat) (rest : Bytes) (h0 : 0x80 ≤ p0)
    (hf : first p0 = some (3, lo, hi))
    (h1 : lo ≤ b1) (h1' : b1 ≤ hi) (h2 : 0x80 ≤ b2) (h2' : b2 ≤ 0xBF) :
    DecodeRune (p0 :: b1 :: b2 :: rest) = ((p0 % 16) * 4096 + (b1 % 64) * 64 + b2 % 64, 3) := by
  simp only [DecodeRune]
  rw [if_neg (by omega)]
  simp only [hf]
  rw [if_neg (by omega), if_neg (by omega), if_neg (by omega), if_pos (by omega)]

theorem DecodeRune_four (p0 b1 b2 b3 lo hi : Nat) (rest : Bytes) (h0 : 0x80 ≤ p0)
    (hf : first p0 = some (4, lo, hi))
    (h1 : lo ≤ b1) (h1' : b1 ≤ hi) (h2 : 0x80 ≤ b2) (h2' : b2 ≤ 0xBF)
    (h3 : 0x80 ≤ b3) (h3' : b3 ≤ 0xBF) :
    DecodeRune (p0 :: b1 :: b2 :: b3 :: rest) =
      ((p0 % 8) * 262144 + (b1 % 64) * 4096 + (b2 % 64) * 64 + b3 % 64, 4) := by
  simp only [DecodeRune]
  rw [if_neg (by omega)]
  simp only [hf]
  rw [if_neg (by omega), if_neg (by omega), if_neg (by omega), if_neg (by omega),
    if_neg (by omega)]

theorem first_three (p0 : Nat) (h : 0xE0 ≤ p0) (h' : p0 ≤ 0xEF) :
    first p0 = some (3, if p0 = 0xE0 then 0xA0 else 0x80, if p0 = 0xED then 0x9F else 0xBF) := by
  unfold first
  split_ifs <;> first | rfl | omega

theorem first_four (p0 : Nat) (h : 0xF0 ≤ p0) (h' : p0 ≤ 0xF4) :
    first p0 = some (4, if p0 = 0xF0 then 0x90 else 0x80, if p0 = 0xF4 then 0x8F else 0xBF) := by
  unfold first
  split_ifs <;> first | rfl | omega

theorem DecodeRune_EncodeRune (n : Nat) (hs : Scalar n) (h80 : 0x80 ≤ n) (rest : Bytes) :
    DecodeRune (EncodeRune n ++ rest) = (n, (EncodeRune n).length) := by
  unfold Scalar at hs
  unfold EncodeRune MaxRune
  by_cases h1 : n ≤ 0x7FF
  · rw [if_neg (by omega), if_pos h1]
    simp only [List.cons_append, List.nil_append, List.length_cons, List.length_nil]
    rw [DecodeRune_two _ _ _ (by omega) (by omega) (by omega) (by omega)]
    refine Prod.ext ?_ rfl
    show _ = n
    omega
  · by_cases h2 : n ≤ 0xFFFF
    · rw [if_neg (by omega), if_neg h1, if_neg (by omega), if_pos h2]
      simp only [List.cons_append, List.nil_append, List.length_cons, List.length_nil]
      rw [DecodeRune_three _ _ _ _ _ _ (by omega) (first_three _ (by omega) (by omega))
        (by split_ifs <;> omega) (by split_ifs <;> omega) (by omega) (by omega)]
      refine Prod.ext ?_ rfl
      show _ = n
      omega
    · rw [if_neg (by omega), if_neg h1, if_neg (by omega), if_neg h2]
      simp only [List.cons_append, List.nil_append, List.length_cons, List.length_nil]
      rw [DecodeRune_four _ _ _ _ _ _ _ (by omega) (first_four _ (by omega) (by omega))
        (by split_ifs <;> omega) (by split_ifs <;> omega) (by omega) (by omega) (by omega)
        (by omega)]
      refine Prod.ext ?_ rfl
      show _ = n
      omega

theorem EncodeRune_ascii (n : Nat) (h : n < 0x80) : EncodeRune n = [n] := by
  unfold EncodeRune
  rw [if_pos (by omega)]

theorem parseString_ascii (n : Nat) (h : n < 0x80) (fuel : Nat) (rest acc : Bytes) :
    parseString (fuel + 1) (escRune n ++ rest) acc = parseString fuel rest (acc ++ [n]) := by
  interval_cases n <;> rfl

/-- The shape of a multi-byte encoding: a lead byte from `0xC2` up and the rest. -/
theorem EncodeRune_cons (n : Nat) (h80 : 0x80 ≤ n) :
    ∃ b t, EncodeRune n = b :: t ∧ 0x80 ≤ b ∧ 2 ≤ (b :: t).length := by
  unfold EncodeRune
  split_ifs
  · omega
  · exact ⟨_, _, rfl, by omega, by simp⟩
  · exact ⟨_, _, rfl, by omega, by simp⟩
  · exact ⟨_, _, rfl, by omega, by simp⟩
  · exact ⟨_, _, rfl, by omega, by simp⟩

theorem parseString_step (n : Nat) (hs : Scalar n) (fuel : Nat) (rest acc : Bytes) :
    parseString (fuel + 1) (escRune n ++ rest) acc =
      parseString fuel rest (acc ++ EncodeRune n) := by
  by_cases h : n < 0x80
  · rw [parseString_ascii n h, EncodeRune_ascii n h]
  · unfold escRune
    rw [if_neg h]
    by_cases h2 : n = 0x2028 ∨ n = 0x2029
    · rw [if_pos h2]
      rcases h2 with h2 | h2 <;> subst h2 <;> rfl
    · rw [if_neg h2]
      obtain ⟨b, t, hbt, hb, hlen⟩ := EncodeRune_cons n (by omega)
      have hd := DecodeRune_EncodeRune n hs (by omega) rest
      rw [hbt] at hd ⊢
      simp only [List.cons_append] at hd ⊢
      simp only [parseString]
      rw [if_neg (by omega), if_neg (by omega), if_neg (by omega), if_neg (by omega)]
      simp only [hd]
      rw [← List.cons_append, List.drop_left, hbt]

theorem appendStringBody_step (n : Nat) (hs : Scalar n) (fuel : Nat) (rest : Bytes) :
    appendStringBody (fuel + 1) (EncodeRune n ++ rest) = escRune n ++ appendStringBody fuel rest := by
  by_cases h : n < 0x80
  · rw [EncodeRune_ascii n h]
    unfold escRune
    rw [if_pos h]
    simp only [List.cons_append, List.nil_append, appendStringBody]
    rw [if_pos h]
    split <;> rfl
  · unfold escRune
    rw [if_neg h]
    obtain ⟨b, t, hbt, hb, hlen⟩ := EncodeRune_cons n (by omega)
    have hd := DecodeRune_EncodeRune n hs (by omega) rest
    rw [hbt] at hd
    simp only [List.cons_append] at hd
    have hlen2 : (b :: t).length ≠ 1 := by omega
    have htake : List.take (b :: t).length (b :: (t ++ rest)) = b :: t := by
      rw [← List.cons_append, List.take_left]
    have hdrop : List.drop (b :: t).length (b :: (t ++ rest)) = rest := by
      rw [← List.cons_append, List.drop_left]
    rw [hbt, List.cons_append]
    simp only [appendStringBody]
    rw [if_neg (by omega)]
    simp only [hd]
    rw [if_neg (by intro hh; exact hlen2 hh.2), htake, hdrop]
    split
    · show _ = (_ ++ [_]) ++ _
      rw [List.append_assoc]
      rfl
    · rfl

theorem EncodeRune_length_pos (n : Nat) : 1 ≤ (EncodeRune n).length := by
  unfold EncodeRune
  split_ifs <;> simp

theorem escRune_length_pos (n : Nat) : 1 ≤ (escRune n).length := by
  unfold escRune escapeByte
  split_ifs <;> first | simp | exact EncodeRune_length_pos n

theorem length_le_flatMap (f : Nat → Bytes) (hf : ∀ n, 1 ≤ (f n).length) (ns : List Nat) :
    ns.length ≤ (ns.flatMap f).length := by
  induction ns with
  | nil => simp
  | cons n rest ih =>
    have := hf n
    simp only [List.flatMap_cons, List.length_append, List.length_cons]
    omega

theorem appendStringBody_runes (ns : List Nat) (hs : ∀ n ∈ ns, Scalar n) :
    ∀ fuel, ns.length ≤ fuel → appendStringBody fuel (ns.flatMap EncodeRune) = ns.flatMap escRune := by
  induction ns with
  | nil => intro fuel _; cases fuel <;> rfl
  | cons n rest ih =>
    intro fuel hfuel
    obtain ⟨k, rfl⟩ : ∃ k, fuel = k + 1 := ⟨fuel - 1, by simp at hfuel; omega⟩
    simp only [List.flatMap_cons]
    rw [appendStringBody_step n (hs n (List.mem_cons_self _ _)),
      ih (fun m hm => hs m (List.mem_cons_of_mem _ hm)) k (by simp at hfuel; omega)]

theorem parseString_runes (ns : List Nat) (hs : ∀ n ∈ ns, Scalar n) :
    ∀ (fuel : Nat) (acc rest : Bytes), ns.length + 1 ≤ fuel →
      parseString fuel (ns.flatMap escRune ++ 0x22 :: rest) acc =
        some (acc ++ ns.flatMap EncodeRune, rest) := by
  induction ns with
  | nil =>
    intro fuel acc rest hfuel
    obtain ⟨k, rfl⟩ : ∃ k, fuel = k + 1 := ⟨fuel - 1, by omega⟩
    simp [parseString]
  | cons n ns ih =>
    intro fuel acc rest hfuel
    obtain ⟨k, rfl⟩ : ∃ k, fuel = k + 1 := ⟨fuel - 1, by omega⟩
    simp only [List.flatMap_cons, List.append_assoc]
    rw [parseString_step n (hs n (List.mem_cons_self _ _)),
      ih (fun m hm => hs m (List.mem_cons_of_mem _ hm)) k _ rest (by simp at hfuel; omega)]
    simp

/-- A quoted string as `appendString` writes it for valid source text is read back by the
parser as that text. -/
theorem parseString_quoted (ns : List Nat) (hs : ∀ n ∈ ns, Scalar n) (rest : Bytes) :
    parseString ((ns.flatMap escRune ++ 0x22 :: rest).length + 1)
      (ns.flatMap escRune ++ 0x22 :: rest) [] = some (ns.flatMap EncodeRune, rest) := by
  have h := length_le_flatMap escRune escRune_length_pos ns
  rw [parseString_runes ns hs _ [] rest (by simp only [List.length_append, List.length_cons]; omega)]
  simp

theorem appendString_runes (ns : List Nat) (hs : ∀ n ∈ ns, Scalar n) :
    appendString (ns.flatMap EncodeRune) = 0x22 :: (ns.flatMap escRune ++ [0x22]) := by
  unfold appendString
  rw [appendStringBody_runes ns hs _ (length_le_flatMap EncodeRune EncodeRune_length_pos ns)]
  rfl

theorem skipSpace_cons_of_not (c : Nat) (rest : Bytes) (h : isSpace c = false) :
    skipSpace (c :: rest) = c :: rest := by
  simp [skipSpace, h]

theorem parseValue_string (ns : List Nat) (hs : ∀ n ∈ ns, Scalar n) (k depth : Nat)
    (rest : Bytes) :
    parseValue (k + 1) depth (0x22 :: (ns.flatMap escRune ++ 0x22 :: rest)) =
      some (JValue.string (ns.flatMap EncodeRune), rest) := by
  simp only [parseValue]
  rw [skipSpace_cons_of_not _ _ (by decide)]
  simp only [Nat.reduceEqDiff, if_false, if_true, parseString_quoted ns hs rest]

theorem parseMembers_last (key val : List Nat) (hk : ∀ n ∈ key, Scalar n)
    (hv : ∀ n ∈ val, Scalar n) (f depth : Nat) (hf : 1 ≤ f) (rest : Bytes) :
    parseMembers (f + 1) depth
      (0x22 :: (key.flatMap escRune ++ 0x22 :: 0x3A :: 0x22 ::
        (val.flatMap escRune ++ 0x22 :: 0x7D :: rest))) =
      some ([(key.flatMap EncodeRune, JValue.string (val.flatMap EncodeRune))], rest) := by
  simp only [parseMembers]
  obtain ⟨k, rfl⟩ : ∃ k, f = k + 1 := ⟨f - 1, by omega⟩
  simp only [if_true, parseString_quoted key hk]
  rw [skipSpace_cons_of_not _ _ (by decide)]
  simp only [if_true, parseValue_string val hv]
  rw [skipSpace_cons_of_not _ _ (by decide)]
  simp only [Nat.reduceEqDiff, if_false, if_true]

theorem parseMembers_more (key val : List Nat) (hk : ∀ n ∈ key, Scalar n)
    (hv : ∀ n ∈ val, Scalar n) (f depth : Nat) (hf : 1 ≤ f) (rest : Bytes)
    (kvs : List (Bytes × JValue)) (r : Bytes)
    (hrest : parseMembers f depth (0x22 :: rest) = some (kvs, r)) :
    parseMembers (f + 1) depth
      (0x22 :: (key.flatMap escRune ++ 0x22 :: 0x3A :: 0x22 ::
        (val.flatMap escRune ++ 0x22 :: 0x2C :: 0x22 :: rest))) =
      some ((key.flatMap EncodeRune, JValue.string (val.flatMap EncodeRune)) :: kvs, r) := by
  simp only [parseMembers]
  simp only [if_true, parseString_quoted key hk]
  rw [skipSpace_cons_of_not _ _ (by decide)]
  obtain ⟨k, rfl⟩ : ∃ k, f = k + 1 := ⟨f - 1, by omega⟩
  simp only [if_true, parseValue_string val hv]
  rw [skipSpace_cons_of_not _ _ (by decide)]
  simp only [if_true]
  rw [skipSpace_cons_of_not _ _ (by decide), hrest]

theorem lit_scalar (s : String) : ∀ n ∈ lit s, Scalar n := by
  intro n hn
  unfold lit at hn
  obtain ⟨c, _, rfl⟩ := List.mem_map.mp hn
  exact char_scalar c

/-- The bytes `Marshal` writes for valid text in the five fields, as the parser meets
them. -/
theorem Marshal_runes (a b c d e : List Nat) (ha : ∀ n ∈ a, Scalar n) (hb : ∀ n ∈ b, Scalar n)
    (hc : ∀ n ∈ c, Scalar n) (hd : ∀ n ∈ d, Scalar n) (he : ∀ n ∈ e, Scalar n) :
    Marshal ⟨a.flatMap EncodeRune, b.flatMap EncodeRune, c.flatMap EncodeRune,
        d.flatMap EncodeRune, e.flatMap EncodeRune⟩ =
      0x7B :: 0x22 :: ((lit "id").flatMap escRune ++ 0x22 :: 0x3A :: 0x22 ::
        (a.flatMap escRune ++ 0x22 :: 0x2C :: 0x22 ::
      ((lit "type").flatMap escRune ++ 0x22 :: 0x3A :: 0x22 ::
        (b.flatMap escRune ++ 0x22 :: 0x2C :: 0x22 ::
      ((lit "name").flatMap escRune ++ 0x22 :: 0x3A :: 0x22 ::
        (c.flatMap escRune ++ 0x22 :: 0x2C :: 0x22 ::
      ((lit "room").flatMap escRune ++ 0x22 :: 0x3A :: 0x22 ::
        (d.flatMap escRune ++ 0x22 :: 0x2C :: 0x22 ::
      ((lit "content").flatMap escRune ++ 0x22 :: 0x3A :: 0x22 ::
        (e.flatMap escRune ++ 0x22 :: 0x7D :: [])))))))))) := by
  have k1 : (lit "id").flatMap escRune = [0x69, 0x64] := by decide
  have k2 : (lit "type").flatMap escRune = [0x74, 0x79, 0x70, 0x65] := by decide
  have k3 : (lit "name").flatMap escRune = [0x6E, 0x61, 0x6D, 0x65] := by decide
  have k4 : (lit "room").flatMap escRune = [0x72, 0x6F, 0x6F, 0x6D] := by decide
  have k5 : (lit "content").flatMap escRune = [0x63, 0x6F, 0x6E, 0x74, 0x65, 0x6E, 0x74] := by
    decide
  have l1 : lit "\x7b\"id\":" = [0x7B, 0x22, 0x69, 0x64, 0x22, 0x3A] := by decide
  have l2 : lit ",\"type\":" = [0x2C, 0x22, 0x74, 0x79, 0x70, 0x65, 0x22, 0x3A] := by decide
  have l3 : lit ",\"name\":" = [0x2C, 0x22, 0x6E, 0x61, 0x6D, 0x65, 0x22, 0x3A] := by decide
  have l4 : lit ",\"room\":" = [0x2C, 0x22, 0x72, 0x6F, 0x6F, 0x6D, 0x22, 0x3A] := by decide
  have l5 : lit ",\"content\":" =
      [0x2C, 0x22, 0x63, 0x6F, 0x6E, 0x74, 0x65, 0x6E, 0x74, 0x22, 0x3A] := by decide
  have l6 : lit "\x7d" = [0x7D] := by decide
  unfold Marshal
  simp only [appendString_runes a ha, appendString_runes b hb, appendString_runes c hc,
    appendString_runes d hd, appendString_runes e he, k1, k2, k3, k4, k5, l1, l2, l3, l4, l5, l6,
    List.append_assoc, List.cons_append, List.nil_append]

theorem parseJSON_Marshal (a b c d e : List Nat) (ha : ∀ n ∈ a, Scalar n)
    (hb : ∀ n ∈ b, Scalar n) (hc : ∀ n ∈ c, Scalar n) (hd : ∀ n ∈ d, Scalar n)
    (he : ∀ n ∈ e, Scalar n) :
    parseJSON (Marshal ⟨a.flatMap EncodeRune, b.flatMap EncodeRune, c.flatMap EncodeRune,
        d.flatMap EncodeRune, e.flatMap EncodeRune⟩) =
      some (JValue.object
        [(lit "id", JValue.string (a.flatMap EncodeRune)),
         (lit "type", JValue.string (b.flatMap EncodeRune)),
         (lit "name", JValue.string (c.flatMap EncodeRune)),
         (lit "room", JValue.string (d.flatMap EncodeRune)),
         (lit "content", JValue.string (e.flatMap EncodeRune))]) := by
  have e1 : (lit "id").flatMap EncodeRune = lit "id" := by decide
  have e2 : (lit "type").flatMap EncodeRune = lit "type" := by decide
  have e3 : (lit "name").flatMap EncodeRune = lit "name" := by decide
  have e4 : (lit "room").flatMap EncodeRune = lit "room" := by decide
  have e5 : (lit "content").flatMap EncodeRune = lit "content" := by decide
  rw [Marshal_runes a b c d e ha hb hc hd he]
  unfold parseJSON
  generalize hlen : List.length _ = len
  have hlen6 : 6 ≤ len := by
    rw [← hlen]
    simp only [List.length_cons, List.length_append]
    omega
  obtain ⟨k, rfl⟩ : ∃ k, len = k + 6 := ⟨len - 6, by omega⟩
  have h5 := parseMembers_last (lit "content") e (lit_scalar _) he (k + 1) 1 (by omega) []
  have h4 := parseMembers_more (lit "room") d (lit_scalar _) hd (k + 2) 1 (by omega) _ _ _ h5
  have h3 := parseMembers_more (lit "name") c (lit_scalar _) hc (k + 3) 1 (by omega) _ _ _ h4
  have h2 := parseMembers_more (lit "type") b (lit_scalar _) hb (k + 4) 1 (by omega) _ _ _ h3
  have h1 := parseMembers_more (lit "id") a (lit_scalar _) ha (k + 5) 1 (by omega) _ _ _ h2
  rw [e1] at h1
  rw [e2] at h1
  rw [e3] at h1
  rw [e4] at h1
  rw [e5] at h1
  simp only [parseValue]
  rw [skipSpace_cons_of_not _ _ (by decide)]
  simp only [if_true]
  rw [if_neg (by decide), skipSpace_cons_of_not _ _ (by decide)]
  simp only [Nat.reduceEqDiff, if_false, h1]
  rfl

theorem round_trip_runes (a b c d e : List Nat) (ha : ∀ n ∈ a, Scalar n)
    (hb : ∀ n ∈ b, Scalar n) (hc : ∀ n ∈ c, Scalar n) (hd : ∀ n ∈ d, Scalar n)
    (he : ∀ n ∈ e, Scalar n) :
    Unmarshal (Marshal ⟨a.flatMap EncodeRune, b.flatMap EncodeRune, c.flatMap EncodeRune,
        d.flatMap EncodeRune, e.flatMap EncodeRune⟩) Message.zero =
      (⟨a.flatMap EncodeRune, b.flatMap EncodeRune, c.flatMap EncodeRune,
        d.flatMap EncodeRune, e.flatMap EncodeRune⟩, none) := by
  have f1 : findField (lit "id") = some Field.ID := by decide
  have f2 : findField (lit "type") = some Field.Type_ := by decide
  have f3 : findField (lit "name") = some Field.Name := by decide
  have f4 : findField (lit "room") = some Field.Room := by decide
  have f5 : findField (lit "content") = some Field.Content := by decide
  unfold Unmarshal
  rw [parseJSON_Marshal a b c d e ha hb hc hd he]
  simp only [decodeValue, decodeMembers, f1, f2, f3, f4, f5, storeMember, Message.set,
    Message.zero]

theorem first_cases (b : Nat) :
    first b = none ∨
    (0xC2 ≤ b ∧ b ≤ 0xDF ∧ first b = some (2, 0x80, 0xBF)) ∨
    (0xE0 ≤ b ∧ b ≤ 0xEF ∧
      first b = some (3, if b = 0xE0 then 0xA0 else 0x80, if b = 0xED then 0x9F else 0xBF)) ∨
    (0xF0 ≤ b ∧ b ≤ 0xF4 ∧
      first b = some (4, if b = 0xF0 then 0x90 else 0x80, if b = 0xF4 then 0x8F else 0xBF)) := by
  by_cases h1 : b < 0xC2
  · left; unfold first; rw [if_pos h1]
  · by_cases h2 : b ≤ 0xDF
    · right; left
      refine ⟨by omega, h2, ?_⟩
      unfold first
      rw [if_neg h1, if_pos h2]
    · by_cases h3 : b ≤ 0xEF
      · right; right; left
        exact ⟨by omega, h3, first_three b (by omega) h3⟩
      · by_cases h4 : b ≤ 0xF4
        · right; right; right
          exact ⟨by omega, h4, first_four b (by omega) h4⟩
        · left
          unfold first
          split_ifs <;> first | rfl | omega

/-- A decoding step that does not report an invalid byte yields a scalar value and
consumes exactly its UTF-8 encoding. -/
theorem DecodeRune_inv (b : Nat) (rest : Bytes)
    (h : ¬((DecodeRune (b :: rest)).1 = RuneError ∧ (DecodeRune (b :: rest)).2 = 1)) :
    Scalar (DecodeRune (b :: rest)).1 ∧
    b :: rest = EncodeRune (DecodeRune (b :: rest)).1 ++
      (b :: rest).drop (DecodeRune (b :: rest)).2 ∧
    ((b :: rest).drop (DecodeRune (b :: rest)).2).length < (b :: rest).length := by
  by_cases hb : b < 0x80
  · have hd : DecodeRune (b :: rest) = (b, 1) := by
      simp only [DecodeRune]
      rw [if_pos hb]
    rw [hd]
    refine ⟨Or.inl (by show b < 0xD800; omega), ?_, by simp⟩
    rw [EncodeRune_ascii b hb]
    rfl
  · rcases first_cases b with hf | ⟨h1, h2, hf⟩ | ⟨h1, h2, hf⟩ | ⟨h1, h2, hf⟩
    · exfalso
      apply h
      simp only [DecodeRune]
      rw [if_neg hb]
      simp only [hf, and_self]
    · cases rest with
      | nil =>
        exfalso
        apply h
        simp only [DecodeRune]
        rw [if_neg hb]
        simp only [hf, and_self]
      | cons b1 t =>
        by_cases hr : 0x80 ≤ b1 ∧ b1 ≤ 0xBF
        · rw [DecodeRune_two b b1 t h1 h2 hr.1 hr.2]
          refine ⟨Or.inl (by show _ < 0xD800; omega), ?_,
            by simp only [List.drop_succ_cons, List.drop_zero, List.length_cons]; omega⟩
          simp only [List.drop_succ_cons, List.drop_zero]
          unfold EncodeRune
          rw [if_neg (by omega), if_pos (by omega)]
          simp only [List.cons_append, List.nil_append, List.cons.injEq, and_true]
          omega
        · exfalso
          apply h
          simp only [DecodeRune]
          rw [if_neg hb]
          simp only [hf]
          rw [if_pos (by omega)]
          simp
    · have hfail : ∀ l : Bytes, l.length < 2 ∨
          (∃ b1 b2 t, l = b1 :: b2 :: t ∧
            ¬((if b = 0xE0 then 0xA0 else 0x80) ≤ b1 ∧ b1 ≤ (if b = 0xED then 0x9F else 0xBF) ∧
              0x80 ≤ b2 ∧ b2 ≤ 0xBF)) →
          DecodeRune (b :: l) = (RuneError, 1) := by
        intro l hl
        simp only [DecodeRune]
        rw [if_neg hb]
        simp only [hf]
        rcases hl with hl | ⟨b1, b2, t, rfl, hbad⟩
        · match l, hl with
          | [], _ => rfl
          | [b1], _ =>
            simp only []
            split_ifs <;> first | rfl | (exfalso; omega)
        · simp only []
          by_cases hr1 : b1 < (if b = 0xE0 then 0xA0 else 0x80) ∨
              (if b = 0xED then 0x9F else 0xBF) < b1
          · rw [if_pos hr1]
          · rw [if_neg hr1, if_neg (by omega), if_pos (by omega)]
      cases rest with
      | nil => exact absurd (by rw [hfail [] (Or.inl (by simp))]; exact ⟨rfl, rfl⟩) h
      | cons b1 t1 =>
        cases t1 with
        | nil => exact absurd (by rw [hfail [b1] (Or.inl (by simp))]; exact ⟨rfl, rfl⟩) h
        | cons b2 t =>
          by_cases hr : (if b = 0xE0 then 0xA0 else 0x80) ≤ b1 ∧
              b1 ≤ (if b = 0xED then 0x9F else 0xBF) ∧ 0x80 ≤ b2 ∧ b2 ≤ 0xBF
          · obtain ⟨hr1, hr2, hr3, hr4⟩ := hr
            rw [DecodeRune_three b b1 b2 _ _ t (by omega) hf hr1 hr2 hr3 hr4]
            have hlo : 0x80 ≤ b1 := by split_ifs at hr1 <;> omega
            have hhi : b1 ≤ 0xBF := by split_ifs at hr2 <;> omega
            have hE0 : b = 0xE0 → 0xA0 ≤ b1 := by intro hh; rw [if_pos hh] at hr1; exact hr1
            have hED : b = 0xED → b1 ≤ 0x9F := by intro hh; rw [if_pos hh] at hr2; exact hr2
            refine ⟨?_, ?_,
              by simp only [List.drop_succ_cons, List.drop_zero, List.length_cons]; omega⟩
            · show _ < 0xD800 ∨ (0xDFFF < _ ∧ _ < 0x110000)
              by_cases hh : b = 0xED
              · have := hED hh
                omega
              · omega
            · simp only [List.drop_succ_cons, List.drop_zero]
              unfold EncodeRune MaxRune
              have hge : 0x800 ≤ b % 16 * 4096 + b1 % 64 * 64 + b2 % 64 := by
                by_cases hh : b = 0xE0
                · have := hE0 hh
                  omega
                · omega
              have hns : ¬(0xD800 ≤ b % 16 * 4096 + b1 % 64 * 64 + b2 % 64 ∧
                  b % 16 * 4096 + b1 % 64 * 64 + b2 % 64 ≤ 0xDFFF) := by
                by_cases hh : b = 0xED
                · have := hED hh
                  omega
                · omega
              rw [if_neg (by omega), if_neg (by omega), if_neg (by omega), if_pos (by omega)]
              simp only [List.cons_append, List.nil_append, List.cons.injEq, and_true]
              omega
          · exact absurd (by rw [hfail (b1 :: b2 :: t) (Or.inr ⟨b1, b2, t, rfl, hr⟩)];
                             exact ⟨rfl, rfl⟩) h
    · have hfail : ∀ l : Bytes, l.length < 3 ∨
          (∃ b1 b2 b3 t, l = b1 :: b2 :: b3 :: t ∧
            ¬((if b = 0xF0 then 0x90 else 0x80) ≤ b1 ∧ b1 ≤ (if b = 0xF4 then 0x8F else 0xBF) ∧
              0x80 ≤ b2 ∧ b2 ≤ 0xBF ∧ 0x80 ≤ b3 ∧ b3 ≤ 0xBF)) →
          DecodeRune (b :: l) = (RuneError, 1) := by
        intro l hl
        simp only [DecodeRune]
        rw [if_neg hb]
        simp only [hf]
        rcases hl with hl | ⟨b1, b2, b3, t, rfl, hbad⟩
        · match l, hl with
          | [], _ => rfl
          | [b1], _ =>
            simp only []
            split_ifs <;> first | rfl | (exfalso; omega)
          | [b1, b2], _ =>
            simp only []
            split_ifs <;> first | rfl | (exfalso; omega)
        · simp only []
          by_cases hr1 : b1 < (if b = 0xF0 then 0x90 else 0x80) ∨
              (if b = 0xF4 then 0x8F else 0xBF) < b1
          · rw [if_pos hr1]
          · rw [if_neg hr1, if_neg (by omega)]
            by_cases hr2 : b2 < 0x80 ∨ 0xBF < b2
            · rw [if_pos hr2]
            · rw [if_neg hr2, if_neg (by omega), if_pos (by omega)]
      cases rest with
      | nil => exact absurd (by rw [hfail [] (Or.inl (by simp))]; exact ⟨rfl, rfl⟩) h
      | cons b1 t1 =>
        cases t1 with
        | nil => exact absurd (by rw [hfail [b1] (Or.inl (by simp))]; exact ⟨rfl, rfl⟩) h
        | cons b2 t2 =>
          cases t2 with
          | nil => exact absurd (by rw [hfail [b1, b2] (Or.inl (by simp))]; exact ⟨rfl, rfl⟩) h
          | cons b3 t =>
            by_cases hr : (if b = 0xF0 then 0x90 else 0x80) ≤ b1 ∧
                b1 ≤ (if b = 0xF4 then 0x8F else 0xBF) ∧ 0x80 ≤ b2 ∧ b2 ≤ 0xBF ∧
                0x80 ≤ b3 ∧ b3 ≤ 0xBF
            · obtain ⟨hr1, hr2, hr3, hr4, hr5, hr6⟩ := hr
              rw [DecodeRune_four b b1 b2 b3 _ _ t (by omega) hf hr1 hr2 hr3 hr4 hr5 hr6]
              have hlo : 0x80 ≤ b1 := by split_ifs at hr1 <;> omega
              have hhi : b1 ≤ 0xBF := by split_ifs at hr2 <;> omega
              have hF0 : b = 0xF0 → 0x90 ≤ b1 := by intro hh; rw [if_pos hh] at hr1; exact hr1
              have hF4 : b = 0xF4 → b1 ≤ 0x8F := by intro hh; rw [if_pos hh] at hr2; exact hr2
              have hge : 0x10000 ≤ b % 8 * 262144 + b1 % 64 * 4096 + b2 % 64 * 64 + b3 % 64 := by
                by_cases hh : b = 0xF0
                · have := hF0 hh
                  omega
                · omega
              have hle : b % 8 * 262144 + b1 % 64 * 4096 + b2 % 64 * 64 + b3 % 64 ≤ 0x10FFFF := by
                by_cases hh : b = 0xF4
                · have := hF4 hh
                  omega
                · omega
              refine ⟨Or.inr ⟨by omega, by omega⟩, ?_,
                by simp only [List.drop_succ_cons, List.drop_zero, List.length_cons]; omega⟩
              simp only [List.drop_succ_cons, List.drop_zero]
              unfold EncodeRune MaxRune
              rw [if_neg (by omega), if_neg (by omega), if_neg (by omega), if_neg (by omega)]
              simp only [List.cons_append, List.nil_append, List.cons.injEq, and_true]
              omega
            · exact absurd (by rw [hfail (b1 :: b2 :: b3 :: t) (Or.inr ⟨b1, b2, b3, t, rfl, hr⟩)];
                               exact ⟨rfl, rfl⟩) h

theorem validLoop_runes : ∀ (fuel : Nat) (s : Bytes), validLoop fuel s = true →
    ∃ ns : List Nat, (∀ n ∈ ns, Scalar n) ∧ s = ns.flatMap EncodeRune := by
  intro fuel
  induction fuel with
  | zero =>
    intro s h
    cases s with
    | nil => exact ⟨[], by simp, rfl⟩
    | cons b rest => simp [validLoop] at h
  | succ fuel ih =>
    intro s h
    cases s with
    | nil => exact ⟨[], by simp, rfl⟩
    | cons b rest =>
      simp only [validLoop] at h
      by_cases hbad : (DecodeRune (b :: rest)).1 = RuneError ∧ (DecodeRune (b :: rest)).2 = 1
      · rw [if_pos hbad] at h
        exact absurd h (by decide)
      · rw [if_neg hbad] at h
        obtain ⟨hs, heq, _⟩ := DecodeRune_inv b rest hbad
        obtain ⟨ns, hns, hrest⟩ := ih _ h
        refine ⟨(DecodeRune (b :: rest)).1 :: ns, ?_, ?_⟩
        · intro n hn
          rcases List.mem_cons.mp hn with rfl | hn
          · exact hs
          · exact hns n hn
        · rw [List.flatMap_cons, ← hrest]
          exact heq

/-- Valid UTF-8 is the encoding of a sequence of scalar values. -/
theorem ValidString_runes (s : Bytes) (h : ValidString s = true) :
    ∃ ns : List Nat, (∀ n ∈ ns, Scalar n) ∧ s = ns.flatMap EncodeRune :=
  validLoop_runes s.length s h

theorem round_trip_valid (m : Message)
    (h1 : ValidString m.ID = true) (h2 : ValidString m.Type_ = true)
    (h3 : ValidString m.Name = true) (h4 : ValidString m.Room = true)
    (h5 : ValidString m.Content = true) :
    Unmarshal (Marshal m) Message.zero = (m, none) := by
  obtain ⟨a, b, c, d, e⟩ := m
  obtain ⟨na, ha, rfl⟩ := ValidString_runes a h1
  obtain ⟨nb, hb, rfl⟩ := ValidString_runes b h2
  obtain ⟨nc, hc, rfl⟩ := ValidString_runes c h3
  obtain ⟨nd, hd, rfl⟩ := ValidString_runes d h4
  obtain ⟨ne, he, rfl⟩ := ValidString_runes e h5
  exact round_trip_runes na nb nc nd ne ha hb hc hd he

theorem Message.get_set_ne (m : Message) (f g : Field) (s : Bytes) (h : g ≠ f) :
    (m.set g s).get f = m.get f := by
  cases f <;> cases g <;> first | rfl | exact absurd rfl h

theorem storeMember_get (st : Message × Option JSONError) (f g : Field) (v : JValue)
    (h : g ≠ f) : (storeMember st g v).1.get f = st.1.get f := by
  cases v <;> first | rfl | exact Message.get_set_ne _ _ _ _ h

theorem storeMember_error (st : Message × Option JSONError) (g : Field) (v : JValue) :
    (storeMember st g v).2 = none ↔ st.2 = none ∧ v.isStringOrNull = true := by
  cases v <;> cases h : st.2 <;> simp [storeMember, JValue.isStringOrNull, h, Option.orElse]

/-- A field that no key of the object addresses keeps the value it had. -/
theorem decodeMembers_get (f : Field) (kvs : List (Bytes × JValue)) :
    ∀ st : Message × Option JSONError, (∀ kv ∈ kvs, findField kv.1 ≠ some f) →
      (decodeMembers st kvs).1.get f = st.1.get f := by
  induction kvs with
  | nil => intro st _; rfl
  | cons kv rest ih =>
    intro st h
    obtain ⟨key, v⟩ := kv
    have hkey := h (key, v) (List.mem_cons_self _ _)
    have hrest := fun kv hkv => h kv (List.mem_cons_of_mem _ hkv)
    simp only [decodeMembers]
    cases hf : findField key with
    | none => exact ih st hrest
    | some g =>
      simp only []
      rw [ih _ hrest]
      apply storeMember_get
      intro hg
      apply hkey
      simp [hf, hg]

/-- Decoding the members reports no error exactly when none was pending and every member
whose key addresses a field holds a string or `null`. -/
theorem decodeMembers_error (kvs : List (Bytes × JValue)) :
    ∀ st : Message × Option JSONError,
      (decodeMembers st kvs).2 = none ↔
        st.2 = none ∧ ∀ kv ∈ kvs, findField kv.1 = none ∨ kv.2.isStringOrNull = true := by
  induction kvs with
  | nil => intro st; simp [decodeMembers]
  | cons kv rest ih =>
    intro st
    obtain ⟨key, v⟩ := kv
    simp only [decodeMembers]
    cases hf : findField key with
    | none =>
      simp only []
      rw [ih]
      simp [hf]
    | some g =>
      simp only []
      rw [ih, storeMember_error]
      simp [hf, and_assoc]

/-! ## The fuel is enough -/

theorem DecodeRune_size_pos (b : Nat) (rest : Bytes) : 1 ≤ (DecodeRune (b :: rest)).2 := by
  by_cases hbad : (DecodeRune (b :: rest)).1 = RuneError ∧ (DecodeRune (b :: rest)).2 = 1
  · omega
  · have h := (DecodeRune_inv b rest hbad).2.2
    by_contra hlt
    have h0 : (DecodeRune (b :: rest)).2 = 0 := by omega
    rw [h0] at h
    simp at h

theorem skipSpace_length_le (bs : Bytes) : (skipSpace bs).length ≤ bs.length := by
  induction bs with
  | nil => simp [skipSpace]
  | cons c rest ih =>
    simp only [skipSpace]
    split
    · simp only [List.length_cons]; omega
    · exact Nat.le_refl _

theorem skipSpace_cons_length {bs : Bytes} {c : Nat} {rest : Bytes}
    (h : skipSpace bs = c :: rest) : rest.length < bs.length := by
  have := skipSpace_length_le bs
  rw [h] at this
  simp only [List.length_cons] at this
  omega

theorem skipDigits_length_le (bs : Bytes) : (skipDigits bs).length ≤ bs.length := by
  induction bs with
  | nil => simp [skipDigits]
  | cons c rest ih =>
    simp only [skipDigits]
    split
    · simp only [List.length_cons]; omega
    · exact Nat.le_refl _

theorem parseExp_length_le {bs r : Bytes} (h : parseExp bs = some r) : r.length ≤ bs.length := by
  unfold parseExp at h
  split at h
  · rename_i e rest
    split at h
    · split at h
      · rename_i s rest1
        split at h
        · split at h
          · rename_i d rest2
            split at h
            · have := skipDigits_length_le rest2
              simp only [Option.some.injEq] at h
              subst h
              simp only [List.length_cons]; omega
            · simp at h
          · simp at h
        · split at h
          · have := skipDigits_length_le rest1
            simp only [Option.some.injEq] at h
            subst h
            simp only [List.length_cons]; omega
          · simp at h
      · simp at h
    · simp only [Option.some.injEq] at h
      subst h
      exact Nat.le_refl _
  · simp only [Option.some.injEq] at h
    subst h
    exact Nat.le_refl _

theorem parseFrac_length_le {bs r : Bytes} (h : parseFrac bs = some r) : r.length ≤ bs.length := by
  unfold parseFrac at h
  split at h
  · rename_i p rest
    split at h
    · split at h
      · rename_i d rest1
        split at h
        · have h1 := parseExp_length_le h
          have h2 := skipDigits_length_le rest1
          simp only [List.length_cons]; omega
        · simp at h
      · simp at h
    · exact parseExp_length_le h
  · simp only [Option.some.injEq] at h
    subst h
    exact Nat.le_refl _

theorem parseNumber_length_lt {bs r : Bytes} (h : parseNumber bs = some r) :
    r.length < bs.length := by
  have key : ∀ (l r : Bytes),
      (match l with
        | c :: rest =>
          if c = 0x30 then parseFrac rest
          else if 0x31 ≤ c ∧ c ≤ 0x39 then parseFrac (skipDigits rest)
          else none
        | [] => none) = some r → r.length < l.length := by
    intro l r hl
    split at hl
    · rename_i c rest
      split at hl
      · have := parseFrac_length_le hl
        simp only [List.length_cons]; omega
      · split at hl
        · have h1 := parseFrac_length_le hl
          have h2 := skipDigits_length_le rest
          simp only [List.length_cons]; omega
        · simp at hl
    · simp at hl
  unfold parseNumber at h
  simp only [] at h
  split at h
  · rename_i c rest
    split at h
    · have := key rest r h
      simp only [List.length_cons]; omega
    · exact key (c :: rest) r h
  · simp at h

theorem expect_length_le {word bs r : Bytes} (h : expect word bs = some r) :
    r.length ≤ bs.length := by
  unfold expect at h
  split at h
  · simp only [Option.some.injEq] at h
    subst h
    simp
  · simp at h

theorem parseString_length_lt : ∀ (fuel : Nat) (bs acc s r : Bytes),
    parseString fuel bs acc = some (s, r) → r.length < bs.length := by
  intro fuel
  induction fuel with
  | zero => intro bs acc s r h; simp [parseString] at h
  | succ fuel ih =>
    intro bs acc s r h
    cases bs with
    | nil => simp [parseString] at h
    | cons c rest =>
      simp only [parseString] at h
      split at h
      · simp only [Option.some.injEq, Prod.mk.injEq] at h
        rw [← h.2]
        simp
      · split at h
        · split at h
          · simp at h
          · rename_i e rest1
            split at h
            · split at h
              · simp at h
              · split at h
                · split at h
                  · have := ih _ _ _ _ h
                    simp only [List.length_drop, List.length_cons] at this ⊢
                    omega
                  · have := ih _ _ _ _ h
                    simp only [List.length_drop, List.length_cons] at this ⊢
                    omega
                · have := ih _ _ _ _ h
                  simp only [List.length_drop, List.length_cons] at this ⊢
                  omega
            · split at h
              · simp at h
              · have := ih _ _ _ _ h
                simp only [List.length_cons] at this ⊢
                omega
        · split at h
          · simp at h
          · split at h
            · have := ih _ _ _ _ h
              simp only [List.length_cons] at this ⊢
              omega
            · have := ih _ _ _ _ h
              have hp := DecodeRune_size_pos c rest
              simp only [List.length_drop, List.length_cons] at this ⊢
              omega

/-- The string parser never runs out of fuel when given more than the length of its input:
the result is the same for every such amount. -/
theorem parseString_fuel : ∀ (fuel1 fuel2 : Nat) (bs acc : Bytes),
    bs.length < fuel1 → bs.length < fuel2 →
      parseString fuel1 bs acc = parseString fuel2 bs acc := by
  intro fuel1
  induction fuel1 with
  | zero => intro fuel2 bs acc h1 _; omega
  | succ k ih =>
    intro fuel2 bs acc h1 h2
    obtain ⟨j, rfl⟩ : ∃ j, fuel2 = j + 1 := ⟨fuel2 - 1, by omega⟩
    cases bs with
    | nil => simp [parseString]
    | cons c rest =>
      simp only [List.length_cons] at h1 h2
      have hp := DecodeRune_size_pos c rest
      simp only [parseString]
      have e1 : ∀ acc1, parseString k rest acc1 = parseString j rest acc1 :=
        fun acc1 => ih j rest acc1 (by omega) (by omega)
      have e2 : ∀ (n : Nat) (l : Bytes) acc1, l.length ≤ rest.length →
          parseString k (l.drop n) acc1 = parseString j (l.drop n) acc1 :=
        fun n l acc1 hl => ih j _ acc1 (by simp only [List.length_drop]; omega)
          (by simp only [List.length_drop]; omega)
      have e3 : ∀ acc1, parseString k ((c :: rest).drop (DecodeRune (c :: rest)).2) acc1 =
          parseString j ((c :: rest).drop (DecodeRune (c :: rest)).2) acc1 :=
        fun acc1 => ih j _ acc1 (by simp only [List.length_drop, List.length_cons]; omega)
          (by simp only [List.length_drop, List.length_cons]; omega)
      split
      · rfl
      · split
        · split
          · rfl
          · rename_i e rest1
            have hl : rest1.length ≤ (e :: rest1).length := by simp
            split
            · split
              · rfl
              · split
                · split
                  · exact e2 _ _ _ hl
                  · exact e2 _ _ _ hl
                · exact e2 _ _ _ hl
            · split
              · rfl
              · apply ih
                · omega
                · omega
        · split
          · rfl
          · split
            · exact e1 _
            · exact e3 _

theorem parse_length_lt : ∀ fuel : Nat,
    (∀ (depth : Nat) (bs : Bytes) (v : JValue) (r : Bytes),
      parseValue fuel depth bs = some (v, r) → r.length < bs.length) ∧
    (∀ (depth : Nat) (bs : Bytes) (kvs : List (Bytes × JValue)) (r : Bytes),
      parseMembers fuel depth bs = some (kvs, r) → r.length < bs.length) ∧
    (∀ (depth : Nat) (bs : Bytes) (vs : List JValue) (r : Bytes),
      parseElements fuel depth bs = some (vs, r) → r.length < bs.length) := by
  intro fuel
  induction fuel with
  | zero =>
    refine ⟨?_, ?_, ?_⟩ <;> intro depth bs v r h
    · simp [parseValue] at h
    · simp [parseMembers] at h
    · simp [parseElements] at h
  | succ fuel ih =>
    obtain ⟨ihV, ihM, ihE⟩ := ih
    refine ⟨?_, ?_, ?_⟩
    · intro depth bs v r h
      simp only [parseValue] at h
      split at h
      · simp at h
      · rename_i c rest hsk
        have hrest := skipSpace_cons_length hsk
        split at h
        · split at h
          · simp at h
          · split at h
            · simp at h
            · rename_i d rest1 hsk1
              have hrest1 := skipSpace_cons_length hsk1
              have hle1 := skipSpace_length_le rest
              rw [hsk1] at hle1
              split at h
              · simp only [Option.some.injEq, Prod.mk.injEq] at h
                rw [← h.2]
                omega
              · split at h
                · rename_i kvs r1 hm
                  have := ihM _ _ _ _ hm
                  simp only [Option.some.injEq, Prod.mk.injEq] at h
                  rw [← h.2]
                  omega
                · simp at h
        · split at h
          · split at h
            · simp at h
            · split at h
              · simp at h
              · rename_i d rest1 hsk1
                have hrest1 := skipSpace_cons_length hsk1
                have hle1 := skipSpace_length_le rest
                rw [hsk1] at hle1
                split at h
                · simp only [Option.some.injEq, Prod.mk.injEq] at h
                  rw [← h.2]
                  omega
                · split at h
                  · rename_i vs r1 hm
                    have := ihE _ _ _ _ hm
                    simp only [Option.some.injEq, Prod.mk.injEq] at h
                    rw [← h.2]
                    omega
                  · simp at h
          · split at h
            · split at h
              · rename_i s r1 hs
                have := parseString_length_lt _ _ _ _ _ hs
                simp only [Option.some.injEq, Prod.mk.injEq] at h
                rw [← h.2]
                omega
              · simp at h
            · split at h
              · simp only [Option.map_eq_some', Prod.mk.injEq] at h
                obtain ⟨a, ha, _, rfl⟩ := h
                have := expect_length_le ha
                omega
              · split at h
                · simp only [Option.map_eq_some', Prod.mk.injEq] at h
                  obtain ⟨a, ha, _, rfl⟩ := h
                  have := expect_length_le ha
                  omega
                · split at h
                  · simp only [Option.map_eq_some', Prod.mk.injEq] at h
                    obtain ⟨a, ha, _, rfl⟩ := h
                    have := expect_length_le ha
                    omega
                  · simp only [Option.map_eq_some', Prod.mk.injEq] at h
                    obtain ⟨a, ha, _, rfl⟩ := h
                    have := parseNumber_length_lt ha
                    simp only [List.length_cons] at this
                    omega
    · intro depth bs kvs r h
      simp only [parseMembers] at h
      split at h
      · simp at h
      · rename_i q rest
        split at h
        · split at h
          · simp at h
          · rename_i key r1 hs
            have h1 := parseString_length_lt _ _ _ _ _ hs
            split at h
            · simp at h
            · rename_i colon r2 hsk
              have h2 := skipSpace_cons_length hsk
              split at h
              · split at h
                · simp at h
                · rename_i v r3 hv
                  have h3 := ihV _ _ _ _ hv
                  split at h
                  · simp at h
                  · rename_i sep r4 hsk4
                    have h4 := skipSpace_cons_length hsk4
                    split at h
                    · split at h
                      · rename_i kvs1 r5 hm
                        have h5 := ihM _ _ _ _ hm
                        have h6 := skipSpace_length_le r4
                        simp only [Option.some.injEq, Prod.mk.injEq] at h
                        rw [← h.2]
                        simp only [List.length_cons]
                        omega
                      · simp at h
                    · split at h
                      · simp only [Option.some.injEq, Prod.mk.injEq] at h
                        rw [← h.2]
                        simp only [List.length_cons]
                        omega
                      · simp at h
              · simp at h
        · simp at h
    · intro depth bs vs r h
      simp only [parseElements] at h
      split at h
      · simp at h
      · rename_i v r1 hv
        have h1 := ihV _ _ _ _ hv
        split at h
        · simp at h
        · rename_i sep r2 hsk
          have h2 := skipSpace_cons_length hsk
          split at h
          · split at h
            · rename_i vs1 r3 he
              have h3 := ihE _ _ _ _ he
              simp only [Option.some.injEq, Prod.mk.injEq] at h
              rw [← h.2]
              omega
            · simp at h
          · split at h
            · simp only [Option.some.injEq, Prod.mk.injEq] at h
              rw [← h.2]
              omega
            · simp at h

/-- The parser needs no more fuel than the number of bytes it consumes, plus one: a result
obtained with some amount of fuel is obtained with every amount above that number. -/
theorem parse_adequate : ∀ F : Nat,
    (∀ (depth : Nat) (bs : Bytes) (v : JValue) (r : Bytes),
      parseValue F depth bs = some (v, r) →
        ∀ f, bs.length - r.length < f → parseValue f depth bs = some (v, r)) ∧
    (∀ (depth : Nat) (bs : Bytes) (kvs : List (Bytes × JValue)) (r : Bytes),
      parseMembers F depth bs = some (kvs, r) →
        ∀ f, bs.length - r.length < f → parseMembers f depth bs = some (kvs, r)) ∧
    (∀ (depth : Nat) (bs : Bytes) (vs : List JValue) (r : Bytes),
      parseElements F depth bs = some (vs, r) →
        ∀ f, bs.length - r.length < f → parseElements f depth bs = some (vs, r)) := by
  intro F
  induction F with
  | zero =>
    refine ⟨?_, ?_, ?_⟩ <;> intro depth bs v r h
    · simp [parseValue] at h
    · simp [parseMembers] at h
    · simp [parseElements] at h
  | succ F ih =>
    obtain ⟨ihV, ihM, ihE⟩ := ih
    refine ⟨?_, ?_, ?_⟩
    · intro depth bs v r h f hf
      have hlt := (parse_length_lt (F + 1)).1 _ _ _ _ h
      obtain ⟨g, rfl⟩ : ∃ g, f = g + 1 := ⟨f - 1, by omega⟩
      simp only [parseValue] at h ⊢
      split at h
      · simp at h
      · rename_i c rest hsk
        have hrest := skipSpace_cons_length hsk
        try rw [hsk]
        try simp only []
        split at h
        · rename_i hc
          rw [if_pos hc]
          split at h
          · simp at h
          · rename_i hdepth
            rw [if_neg hdepth]
            split at h
            · simp at h
            · rename_i d rest1 hsk1
              have hle1 := skipSpace_length_le rest
              rw [hsk1] at hle1
              try rw [hsk1]
              try simp only []
              split at h
              · rename_i hd
                rw [if_pos hd]
                exact h
              · rename_i hd
                rw [if_neg hd]
                split at h
                · rename_i kvs r1 hm
                  simp only [Option.some.injEq, Prod.mk.injEq] at h
                  obtain ⟨hv, hr⟩ := h
                  subst hr
                  rw [ihM _ _ _ _ hm g (by omega)]
                  simp only [hv]
                · simp at h
        · rename_i hc
          rw [if_neg hc]
          split at h
          · rename_i hc2
            rw [if_pos hc2]
            split at h
            · simp at h
            · rename_i hdepth
              rw [if_neg hdepth]
              split at h
              · simp at h
              · rename_i d rest1 hsk1
                have hle1 := skipSpace_length_le rest
                rw [hsk1] at hle1
                try rw [hsk1]
                try simp only []
                split at h
                · rename_i hd
                  rw [if_pos hd]
                  exact h
                · rename_i hd
                  rw [if_neg hd]
                  split at h
                  · rename_i vs r1 hm
                    simp only [Option.some.injEq, Prod.mk.injEq] at h
                    obtain ⟨hv, hr⟩ := h
                    subst hr
                    rw [ihE _ _ _ _ hm g (by omega)]
                    simp only [hv]
                  · simp at h
          · rename_i hc2
            rw [if_neg hc2]
            exact h
    · intro depth bs kvs r h f hf
      have hlt := (parse_length_lt (F + 1)).2.1 _ _ _ _ h
      obtain ⟨g, rfl⟩ : ∃ g, f = g + 1 := ⟨f - 1, by omega⟩
      simp only [parseMembers] at h ⊢
      split at h
      · simp at h
      · rename_i q rest
        simp only [List.length_cons] at hf hlt
        split at h
        · rename_i hq
          rw [if_pos hq]
          split at h
          · simp at h
          · rename_i key r1 hs
            have l1 := parseString_length_lt _ _ _ _ _ hs
            try rw [hs]
            try simp only []
            split at h
            · simp at h
            · rename_i colon r2 hsk
              have l2 := skipSpace_cons_length hsk
              try rw [hsk]
              try simp only []
              split at h
              · rename_i hcolon
                rw [if_pos hcolon]
                split at h
                · simp at h
                · rename_i v r3 hv
                  have l3 := (parse_length_lt F).1 _ _ _ _ hv
                  split at h
                  · simp at h
                  · rename_i sep r4 hsk4
                    have l4 := skipSpace_cons_length hsk4
                    have l5 := skipSpace_length_le r4
                    split at h
                    · rename_i hsep
                      split at h
                      · rename_i kvs1 r5 hm
                        have l6 := (parse_length_lt F).2.1 _ _ _ _ hm
                        simp only [Option.some.injEq, Prod.mk.injEq] at h
                        obtain ⟨hk, hr⟩ := h
                        subst hr
                        rw [ihV _ _ _ _ hv g (by omega)]
                        simp only []
                        rw [hsk4]
                        simp only []
                        rw [if_pos hsep, ihM _ _ _ _ hm g (by omega)]
                        simp only [hk]
                      · simp at h
                    · rename_i hsep
                      split at h
                      · rename_i hsep2
                        simp only [Option.some.injEq, Prod.mk.injEq] at h
                        obtain ⟨hk, hr⟩ := h
                        subst hr
                        rw [ihV _ _ _ _ hv g (by omega)]
                        simp only []
                        rw [hsk4]
                        simp only []
                        rw [if_neg hsep, if_pos hsep2, hk]
                      · simp at h
              · simp at h
        · simp at h
    · intro depth bs vs r h f hf
      have hlt := (parse_length_lt (F + 1)).2.2 _ _ _ _ h
      obtain ⟨g, rfl⟩ : ∃ g, f = g + 1 := ⟨f - 1, by omega⟩
      simp only [parseElements] at h ⊢
      split at h
      · simp at h
      · rename_i v r1 hv
        have l1 := (parse_length_lt F).1 _ _ _ _ hv
        split at h
        · simp at h
        · rename_i sep r2 hsk
          have l2 := skipSpace_cons_length hsk
          split at h
          · rename_i hsep
            split at h
            · rename_i vs1 r3 he
              have l3 := (parse_length_lt F).2.2 _ _ _ _ he
              simp only [Option.some.injEq, Prod.mk.injEq] at h
              obtain ⟨hk, hr⟩ := h
              subst hr
              rw [ihV _ _ _ _ hv g (by omega)]
              simp only []
              try rw [hsk]
              try simp only []
              rw [if_pos hsep, ihE _ _ _ _ he g (by omega)]
              simp only [hk]
            · simp at h
          · rename_i hsep
            split at h
            · rename_i hsep2
              simp only [Option.some.injEq, Prod.mk.injEq] at h
              obtain ⟨hk, hr⟩ := h
              subst hr
              rw [ihV _ _ _ _ hv g (by omega)]
              simp only []
              try rw [hsk]
              try simp only []
              rw [if_neg hsep, if_pos hsep2, hk]
            · simp at h

/-- The fuel `parseJSON` passes is enough: whatever any amount of fuel parses, the amount
`data.length + 1` parses to the same result. -/
theorem parseValue_fuel (F : Nat) (data : Bytes) (v : JValue) (r : Bytes)
    (h : parseValue F 0 data = some (v, r)) :
    parseValue (data.length + 1) 0 data = some (v, r) :=
  (parse_adequate F).1 0 data v r h (data.length + 1) (by omega)

theorem appendStringBody_fuel : ∀ (fuel1 fuel2 : Nat) (bs : Bytes),
    bs.length ≤ fuel1 → bs.length ≤ fuel2 →
      appendStringBody fuel1 bs = appendStringBody fuel2 bs := by
  intro fuel1
  induction fuel1 with
  | zero =>
    intro fuel2 bs h1 _
    have : bs = [] := List.length_eq_zero.mp (by omega)
    subst this
    cases fuel2 <;> rfl
  | succ k ih =>
    intro fuel2 bs h1 h2
    cases bs with
    | nil => cases fuel2 <;> rfl
    | cons b rest =>
      simp only [List.length_cons] at h1 h2
      obtain ⟨j, rfl⟩ : ∃ j, fuel2 = j + 1 := ⟨fuel2 - 1, by omega⟩
      have hp := DecodeRune_size_pos b rest
      simp only [appendStringBody]
      rw [ih j rest (by omega) (by omega),
        ih j ((b :: rest).drop (DecodeRune (b :: rest)).2)
          (by simp only [List.length_drop, List.length_cons]; omega)
          (by simp only [List.length_drop, List.length_cons]; omega)]

theorem validLoop_fuel : ∀ (fuel1 fuel2 : Nat) (bs : Bytes),
    bs.length ≤ fuel1 → bs.length ≤ fuel2 → validLoop fuel1 bs = validLoop fuel2 bs := by
  intro fuel1
  induction fuel1 with
  | zero =>
    intro fuel2 bs h1 _
    have : bs = [] := List.length_eq_zero.mp (by omega)
    subst this
    cases fuel2 <;> rfl
  | succ k ih =>
    intro fuel2 bs h1 h2
    cases bs with
    | nil => cases fuel2 <;> rfl
    | cons b rest =>
      simp only [List.length_cons] at h1 h2
      obtain ⟨j, rfl⟩ : ∃ j, fuel2 = j + 1 := ⟨fuel2 - 1, by omega⟩
      have hp := DecodeRune_size_pos b rest
      simp only [validLoop]
      rw [ih j ((b :: rest).drop (DecodeRune (b :: rest)).2)
          (by simp only [List.length_drop, List.length_cons]; omega)
          (by simp only [List.length_drop, List.length_cons]; omega)]

theorem validLoop_of_runes (ns : List Nat) (hs : ∀ n ∈ ns, Scalar n) :
    ∀ fuel, ns.length ≤ fuel → validLoop fuel (ns.flatMap EncodeRune) = true := by
  induction ns with
  | nil => intro fuel _; cases fuel <;> rfl
  | cons n rest ih =>
    intro fuel hfuel
    obtain ⟨k, rfl⟩ : ∃ k, fuel = k + 1 := ⟨fuel - 1, by simp at hfuel; omega⟩
    have hrest := ih (fun m hm => hs m (List.mem_cons_of_mem _ hm)) k (by simp at hfuel; omega)
    simp only [List.flatMap_cons]
    by_cases h : n < 0x80
    · rw [EncodeRune_ascii n h]
      simp only [List.cons_append, List.nil_append, validLoop, DecodeRune]
      rw [if_pos h]
      simp only [List.drop_succ_cons, List.drop_zero]
      rw [if_neg (by intro hh; unfold RuneError at hh; omega)]
      exact hrest
    · obtain ⟨b, t, hbt, hb, hlen⟩ := EncodeRune_cons n (by omega)
      have hd := DecodeRune_EncodeRune n (hs n (List.mem_cons_self _ _)) (by omega)
        (rest.flatMap EncodeRune)
      rw [hbt] at hd ⊢
      rw [List.cons_append] at hd ⊢
      simp only [validLoop, hd]
      rw [if_neg (by intro hh; omega), ← List.cons_append, List.drop_left]
      exact hrest

/-- The UTF-8 encoding of any text is valid. -/
theorem ValidString_utf8 (s : String) : ValidString (utf8 s) = true :=
  validLoop_of_runes (lit s) (lit_scalar s) _
    (length_le_flatMap EncodeRune EncodeRune_length_pos (lit s))

/-! ## Lemmas on `select` and on the loops -/

theorem selectCase_nil {α : Type} (pick : Nat) : selectCase ([] : List α) pick = none := by
  simp [selectCase]

theorem selectCase_singleton {α : Type} (a : α) (pick : Nat) :
    selectCase [a] pick = some a := by
  simp [selectCase, Nat.mod_one]

theorem readPump_done (rs : List ReadResult) : ∀ s : Sys, (readPump rs s).1.done = s.done := by
  induction rs with
  | nil => intro s; rfl
  | cons r rest ih =>
    intro s
    cases r with
    | err => rfl
    | frame message =>
      simp only [readPump]
      rw [ih]
      split <;> rfl

theorem writePump_done (ws : List (Nat × Bool)) :
    ∀ s : Sys, (writePump ws s).1.done = s.done := by
  induction ws with
  | nil => intro s; rfl
  | cons w rest ih =>
    intro s
    obtain ⟨pick, writeOk⟩ := w
    simp only [writePump]
    split
    · rfl
    · rfl
    · split
      · rfl
      · split
        · rw [ih]
        · rfl

theorem wrapInt_of_range (x : Int) (h1 : -(2 ^ 63) ≤ x) (h2 : x < 2 ^ 63) : wrapInt x = x := by
  unfold wrapInt
  omega

theorem tdiv_two_nonneg_iff (d : Int) : 0 ≤ Int.tdiv d 2 ↔ -1 ≤ d := by
  constructor
  · intro h
    by_contra hd
    have h2 : 0 ≤ -d := by omega
    have h3 := Int.neg_tdiv (-d) 2
    rw [Int.neg_neg, Int.tdiv_eq_ediv h2 (by decide)] at h3
    omega
  · intro h
    rcases (show d = -1 ∨ 0 ≤ d by omega) with h1 | h1
    · subst h1; decide
    · rw [Int.tdiv_eq_ediv h1 (by decide)]
      omega

/-! ## Lemmas on the router and on the done function -/

theorem stripTags_skip : ∀ (xs rest : Bytes), stripTags xs.length (xs ++ rest) = stripTags 0 rest := by
  intro xs
  induction xs with
  | nil => intro rest; rfl
  | cons x xs ih =>
    intro rest
    simp only [List.length_cons, List.cons_append, stripTags]
    exact ih rest

theorem stripTags_plain : ∀ (xs rest : Bytes), Plain xs →
    stripTags 0 (xs ++ rest) = xs ++ stripTags 0 rest := by
  intro xs
  induction xs with
  | nil => intro rest _; rfl
  | cons x xs ih =>
    intro rest h
    have hx : x ≠ 0x5B := h x (List.mem_cons_self _ _)
    have hxs : Plain xs := fun b hb => h b (List.mem_cons_of_mem _ hb)
    rw [List.cons_append]
    simp only [stripTags]
    rw [if_neg hx, ih rest hxs, List.cons_append]

theorem unescapeTags_plain : ∀ xs : Bytes, Plain xs → unescapeTags 0 xs = xs := by
  intro xs
  induction xs with
  | nil => intro _; rfl
  | cons x xs ih =>
    intro h
    have hx : x ≠ 0x5B := h x (List.mem_cons_self _ _)
    have hxs : Plain xs := fun b hb => h b (List.mem_cons_of_mem _ hb)
    simp only [unescapeTags]
    rw [if_neg hx, ih hxs]

theorem stripTags_nil (k : Nat) : stripTags k [] = [] := by
  cases k <;> rfl

/-- A colour tag that names a colour, at the head of the text, is taken out. -/
theorem stripTags_colour (name rest : Bytes) (h1 : name ≠ [])
    (h2 : ∀ b ∈ name, isLetter b = true) :
    stripTags 0 (0x5B :: (name ++ 0x5D :: rest)) = stripTags 0 rest := by
  have hne : ∀ b ∈ name, (b != 0x5D) = true := by
    intro b hb
    have := h2 b hb
    simp only [isLetter, Bool.or_eq_true, Bool.and_eq_true, decide_eq_true_eq] at this
    simp only [bne_iff_ne, ne_eq]
    omega
  have hbody : (name ++ 0x5D :: rest).takeWhile (fun b => b != 0x5D) = name := by
    rw [List.takeWhile_append_of_pos hne]
    simp
  have hsplit : ∀ l : Bytes, (∀ b ∈ l, isLetter b = true) → l ≠ [] → splitColon l = [l] := by
    intro l
    induction l with
    | nil => intro _ h; exact absurd rfl h
    | cons c t ih =>
      intro hl _
      have hc := hl c (List.mem_cons_self _ _)
      have hc3 : c ≠ 0x3A := by
        simp only [isLetter, Bool.or_eq_true, Bool.and_eq_true, decide_eq_true_eq] at hc
        omega
      simp only [splitColon]
      rw [if_neg hc3]
      cases t with
      | nil => rfl
      | cons d t' =>
        rw [ih (fun b hb => hl b (List.mem_cons_of_mem _ hb)) (by simp)]
  have htag : isColorTag name = true := by
    unfold isColorTag
    rw [hsplit name h2 h1]
    have hall : name.all isLetter = true := List.all_eq_true.mpr h2
    have hemp : name.isEmpty = false := by
      cases name with
      | nil => exact absurd rfl h1
      | cons _ _ => rfl
    simp [isColor, hall, hemp]
  simp only [stripTags, if_true, hbody]
  rw [if_pos ⟨by simp, Or.inl htag⟩]
  have := stripTags_skip (name ++ [0x5D]) rest
  simp only [List.length_append, List.length_cons, List.length_nil, List.append_assoc,
    List.cons_append, List.nil_append] at this
  exact this

theorem plain_append {xs ys : Bytes} (hx : Plain xs) (hy : Plain ys) : Plain (xs ++ ys) := by
  intro b hb
  rcases List.mem_append.mp hb with h | h
  · exact hx b h
  · exact hy b h

theorem shown_of_tag_plain (name text : Bytes) (h1 : name ≠ [])
    (h2 : ∀ b ∈ name, isLetter b = true) (ht : Plain text) :
    TextView.shown (0x5B :: (name ++ 0x5D :: text)) = text := by
  unfold TextView.shown
  rw [stripTags_colour name text h1 h2]
  have := stripTags_plain text [] ht
  rw [List.append_nil, stripTags_nil, List.append_nil] at this
  rw [this, unescapeTags_plain text ht]

theorem shown_of_tag_plain_tag_plain (n1 t1 n2 t2 : Bytes) (h1 : n1 ≠ [])
    (h2 : ∀ b ∈ n1, isLetter b = true) (h3 : n2 ≠ []) (h4 : ∀ b ∈ n2, isLetter b = true)
    (ht1 : Plain t1) (ht2 : Plain t2) :
    TextView.shown (0x5B :: (n1 ++ 0x5D :: (t1 ++ 0x5B :: (n2 ++ 0x5D :: t2)))) = t1 ++ t2 := by
  unfold TextView.shown
  rw [stripTags_colour n1 _ h1 h2, stripTags_plain t1 _ ht1, stripTags_colour n2 _ h3 h4]
  have := stripTags_plain t2 [] ht2
  rw [List.append_nil, stripTags_nil, List.append_nil] at this
  rw [this, unescapeTags_plain _ (plain_append ht1 ht2)]

theorem takeWhile_append_newline (p : Nat → Bool) (hp : p 0x0A = false) (u z : Bytes) :
    (u ++ 0x0A :: z).takeWhile p = u.takeWhile p := by
  induction u with
  | nil => simp [List.takeWhile, hp]
  | cons c u ih =>
    rw [List.cons_append]
    by_cases hc : p c = true
    · rw [List.takeWhile_cons_of_pos hc, List.takeWhile_cons_of_pos hc, ih]
    · rw [List.takeWhile_cons_of_neg hc, List.takeWhile_cons_of_neg hc]

theorem takeWhile_length_le (p : Nat → Bool) (u : Bytes) : (u.takeWhile p).length ≤ u.length := by
  induction u with
  | nil => simp
  | cons c u ih =>
    by_cases hc : p c = true
    · rw [List.takeWhile_cons_of_pos hc]
      simp only [List.length_cons]
      omega
    · rw [List.takeWhile_cons_of_neg hc]
      simp

theorem takeWhile_append_of_stop (p : Nat → Bool) (u z : Bytes) (h : ∃ b ∈ u, p b = false) :
    (u ++ z).takeWhile p = u.takeWhile p ∧ (u.takeWhile p).length < u.length := by
  induction u with
  | nil =>
    obtain ⟨b, hb, _⟩ := h
    simp at hb
  | cons c u ih =>
    rw [List.cons_append]
    by_cases hc : p c = true
    · have h1 : ∃ b ∈ u, p b = false := by
        obtain ⟨b, hb, hpb⟩ := h
        rcases List.mem_cons.mp hb with h2 | h2
        · subst h2
          rw [hc] at hpb
          exact absurd hpb (by decide)
        · exact ⟨b, h2, hpb⟩
      rw [List.takeWhile_cons_of_pos hc, List.takeWhile_cons_of_pos hc, (ih h1).1]
      exact ⟨rfl, by simp only [List.length_cons]; have := (ih h1).2; omega⟩
    · rw [List.takeWhile_cons_of_neg hc, List.takeWhile_cons_of_neg hc]
      exact ⟨rfl, by simp⟩

theorem mem_splitColon (body : Bytes) (b : Nat) (hb : b ∈ body) :
    b = 0x3A ∨ ∃ f ∈ splitColon body, b ∈ f := by
  induction body with
  | nil => simp at hb
  | cons c rest ih =>
    simp only [splitColon]
    by_cases hc : c = 0x3A
    · rw [if_pos hc]
      rcases List.mem_cons.mp hb with h | h
      · left
        rw [h, hc]
      · rcases ih h with h1 | ⟨f, hf, hbf⟩
        · exact Or.inl h1
        · exact Or.inr ⟨f, List.mem_cons_of_mem _ hf, hbf⟩
    · rw [if_neg hc]
      rcases List.mem_cons.mp hb with h | h
      · right
        cases hsp : splitColon rest with
        | nil => exact ⟨[c], by simp, by simp [h]⟩
        | cons f fs => exact ⟨c :: f, by simp, by simp [h]⟩
      · rcases ih h with h1 | ⟨f, hf, hbf⟩
        · exact Or.inl h1
        · right
          cases hsp : splitColon rest with
          | nil =>
            rw [hsp] at hf
            simp at hf
          | cons g gs =>
            rw [hsp] at hf
            rcases List.mem_cons.mp hf with h2 | h2
            · subst h2
              exact ⟨c :: f, by simp, List.mem_cons_of_mem _ hbf⟩
            · exact ⟨f, by simp [h2], hbf⟩

theorem isColor_no_newline (f : Bytes) (h : 0x0A ∈ f) : isColor f = false := by
  unfold isColor
  have h1 : (f == [0x2D]) = false := by
    rw [beq_eq_false_iff_ne]
    intro h2
    rw [h2] at h
    simp at h
  have h2 : f.all isLetter = false := by
    rw [List.all_eq_false]
    exact ⟨0x0A, h, by decide⟩
  rw [h1, h2]
  simp only [Bool.and_false, Bool.or_false, Bool.false_or]
  split
  · rename_i digits
    have h3 : 0x0A ∈ digits := by
      rcases List.mem_cons.mp h with h4 | h4
      · exact absurd h4 (by decide)
      · exact h4
    have h5 : digits.all isAlnum = false := by
      rw [List.all_eq_false]
      exact ⟨0x0A, h3, by decide⟩
    rw [h5]
    simp
  · rfl

theorem isFlags_no_newline (f : Bytes) (h : 0x0A ∈ f) : isFlags f = false := by
  unfold isFlags
  have h1 : (f == [0x2D]) = false := by
    rw [beq_eq_false_iff_ne]
    intro h2
    rw [h2] at h
    simp at h
  have h2 : f.all (fun c => (lit "lbidrus").contains c) = false := by
    rw [List.all_eq_false]
    exact ⟨0x0A, h, by decide⟩
  rw [h1, h2]
  simp

theorem isColorTag_no_newline (body : Bytes) (h : 0x0A ∈ body) : isColorTag body = false := by
  rcases mem_splitColon body 0x0A h with h1 | ⟨f, hf, hbf⟩
  · exact absurd h1 (by decide)
  · have hne : f.isEmpty = false := by
      cases f with
      | nil => simp at hbf
      | cons _ _ => rfl
    have hc := isColor_no_newline f hbf
    have hfl := isFlags_no_newline f hbf
    unfold isColorTag
    split
    · rename_i fg heq
      rw [heq] at hf
      simp at hf
      subst hf
      simp [hne, hc]
    · rename_i fg bg heq
      rw [heq] at hf
      simp at hf
      rcases hf with hf | hf
      · subst hf
        simp [hne, hc]
      · subst hf
        simp [hne, hc]
    · rename_i fg bg flags heq
      rw [heq] at hf
      simp at hf
      rcases hf with hf | hf | hf
      · subst hf
        simp [hne, hc]
      · subst hf
        simp [hne, hc]
      · subst hf
        simp [hne, hfl]
    · simp

theorem isRegionTag_no_newline (body : Bytes) (h : 0x0A ∈ body) : isRegionTag body = false := by
  unfold isRegionTag
  split
  · rename_i rest
    have h1 : 0x0A ∈ rest := by
      rcases List.mem_cons.mp h with h2 | h2
      · exact absurd h2 (by decide)
      · exact h2
    split
    · rename_i idReversed heq
      have h3 : 0x0A ∈ rest.reverse := List.mem_reverse.mpr h1
      rw [heq] at h3
      rcases List.mem_cons.mp h3 with h4 | h4
      · exact absurd h4 (by decide)
      · rw [List.all_eq_false]
        exact ⟨0x0A, h4, by decide⟩
    · rfl
  · rfl

/-- No tag reaches over the end of a line: the tags taken out of a text that follows
a line feed do not depend on what precedes the line feed. -/
theorem stripTags_line : ∀ (u : Bytes) (k : Nat) (w : Bytes), k ≤ u.length →
    stripTags k (u ++ 0x0A :: w) = stripTags k (u ++ [0x0A]) ++ stripTags 0 w := by
  intro u
  induction u with
  | nil =>
    intro k w hk
    have : k = 0 := by simpa using hk
    subst this
    simp [stripTags]
  | cons c u ih =>
    intro k w hk
    cases k with
    | succ k =>
      simp only [List.cons_append, stripTags]
      exact ih k w (by simpa using hk)
    | zero =>
      rw [List.cons_append, List.cons_append]
      simp only [stripTags]
      by_cases hc : c = 0x5B
      · rw [if_pos hc, if_pos hc]
        by_cases hstop : ∃ b ∈ u, (b != 0x5D) = false
        · have h1 := takeWhile_append_of_stop (fun b => b != 0x5D) u (0x0A :: w) hstop
          have h2 := takeWhile_append_of_stop (fun b => b != 0x5D) u [0x0A] hstop
          rw [h1.1, h2.1]
          have hl := h1.2
          by_cases htag : isColorTag (u.takeWhile (fun b => b != 0x5D)) = true ∨
              isRegionTag (u.takeWhile (fun b => b != 0x5D)) = true
          · rw [if_pos ⟨by simp only [List.length_append, List.length_cons]; omega, htag⟩,
              if_pos ⟨by simp only [List.length_append, List.length_cons]; omega, htag⟩]
            exact ih _ w (by omega)
          · rw [if_neg (fun h => htag h.2), if_neg (fun h => htag h.2), ih 0 w (Nat.zero_le _)]
            rfl
        · have hall : ∀ b ∈ u, (b != 0x5D) = true := by
            intro b hb
            by_contra hne
            exact hstop ⟨b, hb, by simpa using hne⟩
          rw [List.takeWhile_append_of_pos hall, List.takeWhile_append_of_pos hall]
          have hn1 : 0x0A ∈ u ++ List.takeWhile (fun b => b != 0x5D) (0x0A :: w) := by
            rw [List.takeWhile_cons_of_pos (by decide)]
            simp
          have hn2 : (u ++ List.takeWhile (fun b => b != 0x5D) [0x0A]).length =
              (u ++ [0x0A]).length := by
            rw [List.takeWhile_cons_of_pos (by decide)]
            simp
          rw [if_neg, if_neg, ih 0 w (Nat.zero_le _)]
          · rfl
          · intro h
            omega
          · intro h
            rcases h.2 with h3 | h3
            · rw [isColorTag_no_newline _ hn1] at h3
              exact absurd h3 (by decide)
            · rw [isRegionTag_no_newline _ hn1] at h3
              exact absurd h3 (by decide)
      · rw [if_neg hc, if_neg hc, ih 0 w (Nat.zero_le _)]
        rfl

/-- A text that ends with a line feed still ends with it after its tags are taken out. -/
theorem stripTags_line_end : ∀ (u : Bytes) (k : Nat), k ≤ u.length →
    ∃ u2 : Bytes, stripTags k (u ++ [0x0A]) = u2 ++ [0x0A] := by
  intro u
  induction u with
  | nil =>
    intro k hk
    have : k = 0 := by simpa using hk
    subst this
    exact ⟨[], by simp [stripTags]⟩
  | cons c u ih =>
    intro k hk
    cases k with
    | succ k =>
      simp only [List.cons_append, stripTags]
      exact ih k (by simpa using hk)
    | zero =>
      rw [List.cons_append]
      simp only [stripTags]
      have hcons : ∃ u2 : Bytes, c :: stripTags 0 (u ++ [0x0A]) = u2 ++ [0x0A] := by
        obtain ⟨u2, h2⟩ := ih 0 (Nat.zero_le _)
        exact ⟨c :: u2, by rw [h2]; rfl⟩
      by_cases hc : c = 0x5B
      · rw [if_pos hc]
        by_cases htag : ((u ++ [0x0A]).takeWhile (fun b => b != 0x5D)).length <
            (u ++ [0x0A]).length ∧
            (isColorTag ((u ++ [0x0A]).takeWhile (fun b => b != 0x5D)) = true ∨
              isRegionTag ((u ++ [0x0A]).takeWhile (fun b => b != 0x5D)) = true)
        · rw [if_pos htag]
          by_cases hstop : ∃ b ∈ u, (b != 0x5D) = false
          · have h2 := takeWhile_append_of_stop (fun b => b != 0x5D) u [0x0A] hstop
            rw [h2.1]
            exact ih _ (by have := h2.2; omega)
          · have hall : ∀ b ∈ u, (b != 0x5D) = true := by
              intro b hb
              by_contra hne
              exact hstop ⟨b, hb, by simpa using hne⟩
            have h3 := htag.1
            rw [List.takeWhile_append_of_pos hall, List.takeWhile_cons_of_pos (by decide)] at h3
            simp at h3
        · rw [if_neg htag]
          exact hcons
      · rw [if_neg hc]
        exact hcons

theorem drop_cons_length {u d : Bytes} {o : Nat} {n : Nat} (h : u.drop n = o :: d) :
    u.length = n + 1 + d.length := by
  have := congrArg List.length h
  simp only [List.length_drop, List.length_cons] at this
  omega

/-- No escaped tag reaches over the end of a line. -/
theorem unescapeTags_line : ∀ (u : Bytes) (k : Nat) (y : Bytes), k ≤ u.length →
    unescapeTags k (u ++ 0x0A :: y) = unescapeTags k (u ++ [0x0A]) ++ unescapeTags 0 y := by
  intro u
  induction u with
  | nil =>
    intro k y hk
    have : k = 0 := by simpa using hk
    subst this
    simp [unescapeTags]
  | cons c u ih =>
    intro k y hk
    cases k with
    | succ k =>
      simp only [List.cons_append, unescapeTags]
      exact ih k y (by simpa using hk)
    | zero =>
      rw [List.cons_append, List.cons_append]
      simp only [unescapeTags]
      have hplain := ih 0 y (Nat.zero_le _)
      by_cases hc : c = 0x5B
      · rw [if_pos hc, if_pos hc]
        rw [takeWhile_append_newline isEscapeChar (by decide) u y,
          takeWhile_append_newline isEscapeChar (by decide) u []]
        have hrl := takeWhile_length_le isEscapeChar u
        rw [List.drop_append_of_le_length hrl, List.drop_append_of_le_length hrl]
        cases hd : u.drop (u.takeWhile isEscapeChar).length with
        | nil =>
          simp only [List.nil_append, List.takeWhile_nil, List.length_nil, List.drop_nil]
          split
          · rw [hplain]
            rfl
          · rw [if_neg (by intro h; exact absurd h.1 (by decide)), hplain]
            rfl
        | cons o d =>
          simp only [List.cons_append]
          rw [takeWhile_append_newline (fun b => b == 0x5B) (by decide) d y,
            takeWhile_append_newline (fun b => b == 0x5B) (by decide) d []]
          have hml := takeWhile_length_le (fun b => b == 0x5B) d
          rw [List.drop_append_of_le_length hml, List.drop_append_of_le_length hml]
          cases hd2 : d.drop (d.takeWhile (fun b => b == 0x5B)).length with
          | nil =>
            simp only [List.nil_append]
            rw [if_neg (by intro h; exact absurd h.2.1 (by decide)),
              if_neg (by intro h; exact absurd h.2.1 (by decide)), hplain]
            rfl
          | cons e d3 =>
            simp only [List.cons_append]
            by_cases hcond : o = 0x5B ∧ e = 0x5D ∧ u.takeWhile isEscapeChar ≠ []
            · rw [if_pos hcond, if_pos hcond]
              have hl1 := drop_cons_length hd
              have hl2 := drop_cons_length hd2
              rw [ih _ y (by omega)]
              simp only [List.append_assoc, List.cons_append]
            · rw [if_neg hcond, if_neg hcond, hplain]
              rfl
      · rw [if_neg hc, if_neg hc, hplain]
        rfl

/-- What the view shows for a line does not depend on the lines before it: for a text
that is empty or ends with a line feed, followed by another text, the view shows what
it shows for the one followed by what it shows for the other. -/
theorem shown_append_of_line_end (v w : Bytes) (h : v = [] ∨ ∃ u : Bytes, v = u ++ lit "\n") :
    TextView.shown (v ++ w) = TextView.shown v ++ TextView.shown w := by
  rcases h with h | ⟨u, h⟩
  · subst h
    rfl
  · subst h
    have hn : lit "\n" = [0x0A] := rfl
    rw [hn]
    unfold TextView.shown
    rw [List.append_assoc, List.singleton_append, stripTags_line u 0 w (Nat.zero_le _)]
    obtain ⟨u2, h2⟩ := stripTags_line_end u 0 (Nat.zero_le _)
    rw [h2, List.append_assoc, List.singleton_append,
      unescapeTags_line u2 0 _ (Nat.zero_le _)]

theorem plain_of_lit_colon : Plain (lit ": ") := by
  unfold Plain
  decide

theorem plain_of_lit_newline : Plain (lit "\n") := by
  unfold Plain
  decide

/-- What the view shows for the line `displayMessage` writes, when neither the name nor
the content holds a `[`. -/
theorem shown_displayWritten (msg : Message) (hc : Plain msg.Content) :
    (msg.Type_ = lit "user_message" → Plain msg.Name →
      TextView.shown (displayWritten msg) = msg.Name ++ lit ": " ++ msg.Content ++ lit "\n") ∧
    (msg.Type_ ≠ lit "user_message" →
      TextView.shown (displayWritten msg) = msg.Content ++ lit "\n") := by
  have hy : lit "[yellow]" = 0x5B :: (lit "yellow" ++ [0x5D]) := by decide
  have hg : lit "[green]" = 0x5B :: (lit "green" ++ [0x5D]) := by decide
  have hw : lit "[white]" = 0x5B :: (lit "white" ++ [0x5D]) := by decide
  have hcw : lit ": [white]" = lit ": " ++ 0x5B :: (lit "white" ++ [0x5D]) := by decide
  have hcn : Plain (msg.Content ++ lit "\n") := plain_append hc plain_of_lit_newline
  constructor
  · intro ht hn
    have h : displayWritten msg =
        0x5B :: (lit "green" ++ 0x5D :: ((msg.Name ++ lit ": ") ++
          0x5B :: (lit "white" ++ 0x5D :: (msg.Content ++ lit "\n")))) := by
      unfold displayWritten
      rw [if_neg (by rw [ht]; decide), if_pos ht, hg, hcw]
      simp only [List.append_assoc, List.cons_append, List.nil_append]
    rw [h, shown_of_tag_plain_tag_plain (lit "green") (msg.Name ++ lit ": ") (lit "white")
      (msg.Content ++ lit "\n") (by decide) (by decide) (by decide) (by decide)
      (plain_append hn plain_of_lit_colon) hcn]
    simp only [List.append_assoc]
  · intro ht
    unfold displayWritten
    by_cases hs : msg.Type_ = lit "server_message"
    · rw [if_pos hs, hy]
      simp only [List.append_assoc, List.cons_append, List.nil_append]
      exact shown_of_tag_plain (lit "yellow") _ (by decide) (by decide) hcn
    · rw [if_neg hs, if_neg ht, hw]
      simp only [List.append_assoc, List.cons_append, List.nil_append]
      exact shown_of_tag_plain (lit "white") _ (by decide) (by decide) hcn

/-! ## Lemmas on `printCentered` -/

theorem wrapInt_lt (x : Int) : wrapInt x < 2 ^ 63 := by
  unfold wrapInt
  omega

theorem wrapInt_ge (x : Int) : -(2 ^ 63) ≤ wrapInt x := by
  unfold wrapInt
  omega

theorem tdiv_two_le (d : Int) (h : 0 ≤ d) : Int.tdiv d 2 * 2 ≤ d := by
  rw [Int.tdiv_eq_ediv h (by decide)]
  omega

theorem replicate_space_flatten (n : Nat) :
    (List.replicate n (lit " ")).flatten = List.replicate n 0x20 := by
  induction n with
  | zero => rfl
  | succ n ih =>
    rw [List.replicate_succ, List.flatten_cons, ih, List.replicate_succ]
    rfl

/-- The space padding of `strings.Repeat(" ", count)` for a count that is not negative: it
is produced exactly when it is not above `maxAlloc` and, from two spaces on, not above
what the run can allocate. -/
theorem stringsRepeat_space (room : Nat) (count : Int) (h0 : 0 ≤ count) (h1 : count < 2 ^ 62 + 1) :
    stringsRepeat room (lit " ") count =
      if 2 ≤ count ∧ (maxAlloc < count.toNat ∨ room < count.toNat) then none
      else some (List.replicate count.toNat 0x20) := by
  have hlen : (lit " ").length = 1 := by decide
  unfold stringsRepeat
  rw [hlen]
  by_cases hc0 : count = 0
  · subst hc0
    simp
  · rw [if_neg hc0]
    by_cases hc1 : count = 1
    · subst hc1
      rw [if_pos rfl, if_neg (by omega)]
      rfl
    · rw [if_neg hc1, if_neg (by omega)]
      have h2 : 2 ≤ count := by omega
      have hmi : ¬ maxInt < 1 * count.toNat := by
        unfold maxInt
        omega
      rw [if_neg hmi, if_neg (by decide), Nat.one_mul, replicate_space_flatten]
      by_cases ha : maxAlloc < count.toNat
      · rw [if_pos ha, if_pos ⟨h2, Or.inl ha⟩]
      · rw [if_neg ha]
        by_cases hr : room < count.toNat
        · rw [if_pos hr, if_pos ⟨h2, Or.inr hr⟩]
        · rw [if_neg hr, if_neg (by intro hh; rcases hh.2 with h | h <;> contradiction)]

/-! ## The claims -/

/-- C1 (the claim fails): a `Message` whose content is the single byte `0xFF`, not valid
UTF-8, is encoded with the escape `\ufffd`, and decoding yields the content U+FFFD
(three bytes), not the original. -/
theorem C1_round_trip_counterexample :
    Marshal ⟨[], [], [], [], [0xFF]⟩ =
      lit "\x7b\"id\":\"\",\"type\":\"\",\"name\":\"\",\"room\":\"\",\"content\":\"\\ufffd\"\x7d" ∧
    Unmarshal (Marshal ⟨[], [], [], [], [0xFF]⟩) Message.zero =
      (⟨[], [], [], [], [0xEF, 0xBF, 0xBD]⟩, none) ∧
    (Unmarshal (Marshal ⟨[], [], [], [], [0xFF]⟩) Message.zero).1 ≠ ⟨[], [], [], [], [0xFF]⟩ := by
  decide

/-- C1 (amended): for every `Message` whose five fields are valid UTF-8
(`utf8.ValidString`), decoding the bytes `json.Marshal` produces for it succeeds and
yields a `Message` equal to it in all five fields. -/
theorem C1_round_trip_valid_utf8 (m : Message)
    (h1 : ValidString m.ID = true) (h2 : ValidString m.Type_ = true)
    (h3 : ValidString m.Name = true) (h4 : ValidString m.Room = true)
    (h5 : ValidString m.Content = true) :
    Unmarshal (Marshal m) Message.zero = (m, none) :=
  round_trip_valid m h1 h2 h3 h4 h5

/-- An instance of C1 (amended): a message with accents, a currency sign, an emoji, quotes,
angle brackets and a line feed. -/
theorem C1_round_trip_valid_utf8_witness :
    ValidString (utf8 "Zoë <€> \"😀\"\n") = true ∧
    Unmarshal (Marshal ⟨lit "7", lit "user_message", utf8 "Zoë", lit "lobby",
        utf8 "Zoë <€> \"😀\"\n"⟩) Message.zero =
      (⟨lit "7", lit "user_message", utf8 "Zoë", lit "lobby", utf8 "Zoë <€> \"😀\"\n"⟩, none) :=
  ⟨by decide,
   C1_round_trip_valid_utf8
     ⟨lit "7", lit "user_message", utf8 "Zoë", lit "lobby", utf8 "Zoë <€> \"😀\"\n"⟩
     (by decide) (by decide) (by decide) (by decide) (by decide)⟩

/-- C2 (divergence of the code): for every frame, decodable or not, the inbound loop sends
one `Message` on `c.receive`: whatever `json.Unmarshal` left in the fresh `msg`.  A frame
that fails to decode is logged first; the loop then goes on with the next frame.
On the frame `x` the zero `Message` is published, and the router displays an empty
line for it. -/
theorem C2_malformed_frame_is_published (s : Sys) (rest : List ReadResult) (user : User) :
    (∀ message : Bytes, (readPump [ReadResult.frame message] s).1.receive =
      s.receive ++ [(Unmarshal message Message.zero).1]) ∧
    (Unmarshal (lit "x") Message.zero).2 = some JSONError.SyntaxError ∧
    readPump (ReadResult.frame (lit "x") :: rest) s =
      readPump rest { s with log := s.log ++ [LogLine.jsonUnmarshallingError],
                             receive := s.receive ++ [Message.zero] } ∧
    (readPump [ReadResult.frame (lit "x")] Sys.init).1.receive = [Message.zero] ∧
    (handleMessages user [0] (readPump [ReadResult.frame (lit "x")] Sys.init).1).1.view
      = lit "[white]\n" := by
  refine ⟨?_, by decide, ?_, by decide, by rfl⟩
  · intro message
    simp only [readPump]
    split <;> rfl
  · have h : Unmarshal (lit "x") Message.zero = (Message.zero, some JSONError.SyntaxError) := by
      decide
    simp [readPump, h]

/-- C3 (the claim fails): the empty object `{}` is well-formed and lacks all five fields,
and decoding it returns no error: it yields the `Message` with five empty fields. -/
theorem C3_missing_fields_counterexample :
    parseJSON (lit "\x7b\x7d") = some (JValue.object []) ∧
    Unmarshal (lit "\x7b\x7d") Message.zero = (Message.zero, none) ∧
    Unmarshal (lit "\x7b\"content\":\"hi\"\x7d") Message.zero =
      ({ Message.zero with Content := lit "hi" }, none) :=
  ⟨rfl, by decide, by decide⟩

/-- C3 (amended): for every well-formed JSON object, decoding into a fresh `Message` leaves
each field that no key of the object addresses as the empty string, and returns no
error exactly when every member whose key addresses a field holds a string or `null`;
bytes that are not well-formed JSON give a `SyntaxError` and the fresh `Message`. -/
theorem C3_missing_fields_are_empty (data : Bytes) (kvs : List (Bytes × JValue))
    (h : parseJSON data = some (JValue.object kvs)) :
    (∀ f : Field, (∀ kv ∈ kvs, findField kv.1 ≠ some f) →
      (Unmarshal data Message.zero).1.get f = []) ∧
    ((Unmarshal data Message.zero).2 = none ↔
      ∀ kv ∈ kvs, findField kv.1 = none ∨ kv.2.isStringOrNull = true) ∧
    (∀ bad : Bytes, parseJSON bad = none →
      Unmarshal bad Message.zero = (Message.zero, some JSONError.SyntaxError)) := by
  refine ⟨?_, ?_, ?_⟩
  · intro f hf
    simp only [Unmarshal, h, decodeValue]
    rw [decodeMembers_get f kvs _ hf]
    cases f <;> rfl
  · simp only [Unmarshal, h, decodeValue]
    rw [decodeMembers_error]
    simp
  · intro bad hbad
    simp only [Unmarshal, hbad]

/-- An instance of C3 (amended): an object with `id`, a `null` under `Type` and an unknown
key; `content` is missing and comes out empty, and there is no error. -/
theorem C3_missing_fields_are_empty_witness :
    parseJSON (lit "\x7b\"id\":\"a\",\"Type\":null,\"extra\":[1]\x7d") =
      some (JValue.object [(lit "id", JValue.string (lit "a")), (lit "Type", JValue.null),
        (lit "extra", JValue.array [JValue.number])]) ∧
    (Unmarshal (lit "\x7b\"id\":\"a\",\"Type\":null,\"extra\":[1]\x7d") Message.zero).1.get
      Field.Content = [] ∧
    (Unmarshal (lit "\x7b\"id\":\"a\",\"Type\":null,\"extra\":[1]\x7d") Message.zero).2 = none :=
  ⟨rfl,
   (C3_missing_fields_are_empty (lit "\x7b\"id\":\"a\",\"Type\":null,\"extra\":[1]\x7d") _ rfl).1
     Field.Content (by decide),
   (C3_missing_fields_are_empty (lit "\x7b\"id\":\"a\",\"Type\":null,\"extra\":[1]\x7d") _ rfl).2.1.mpr
     (by decide)⟩

/-- C5 (the claim fails): the view reads tags in the name and in the content.  For the user
message of `a[red]b` with content `hi` the line shown is `ab: hi`, not `a[red]b: hi`; for
the server message with content `a[red]b` it is `ab`. -/
theorem C5_display_line_counterexample :
    TextView.shown
        (displayMessage ⟨[], lit "user_message", lit "a[red]b", [], lit "hi"⟩ Sys.init).view =
      lit "ab: hi\n" ∧
    lit "ab: hi\n" ≠ lit "a[red]b" ++ lit ": " ++ lit "hi" ++ lit "\n" ∧
    TextView.shown
        (displayMessage ⟨[], lit "server_message", [], [], lit "a[red]b"⟩ Sys.init).view =
      lit "ab\n" ∧
    lit "ab\n" ≠ lit "a[red]b" ++ lit "\n" := by
  decide

/-- C5 (amended): `displayMessage` appends to the view the line `displayWritten` builds from
the type, the name and the content, and the line ends with a line feed; so does the
line the done function of the input field writes, hence every view the program
reaches is empty or ends with a line feed.  After such a view, when the name and the
content hold no `[`, the view shows for the line of a message of type `user_message`
the text `<name>: <content>`; when the content holds no `[`, it shows for the line of
a message of any other type, `server_message` among them, the content alone, and the
name plays no part. -/
theorem C5_display_line (msg : Message) (s : Sys) :
    (displayMessage msg s).view = s.view ++ displayWritten msg ∧
    (∃ u : Bytes, displayWritten msg = u ++ lit "\n") ∧
    (∀ key : Key, (inputDone key s).view = s.view ∨
      ∃ u : Bytes, (inputDone key s).view = s.view ++ (u ++ lit "\n")) ∧
    (msg.Type_ = lit "user_message" → Plain msg.Name → Plain msg.Content →
      (s.view = [] ∨ ∃ u : Bytes, s.view = u ++ lit "\n") →
      TextView.shown (displayMessage msg s).view =
        TextView.shown s.view ++ (msg.Name ++ lit ": " ++ msg.Content ++ lit "\n")) ∧
    (msg.Type_ ≠ lit "user_message" → Plain msg.Content →
      (s.view = [] ∨ ∃ u : Bytes, s.view = u ++ lit "\n") →
      TextView.shown (displayMessage msg s).view =
        TextView.shown s.view ++ (msg.Content ++ lit "\n")) ∧
    (msg.Type_ ≠ lit "user_message" →
      ∀ name : Bytes, displayMessage { msg with Name := name } s = displayMessage msg s) := by
  have hv : (displayMessage msg s).view = s.view ++ displayWritten msg := rfl
  refine ⟨rfl, ?_, ?_, ?_, ?_, ?_⟩
  · unfold displayWritten
    split
    · exact ⟨_, rfl⟩
    · split
      · exact ⟨_, rfl⟩
      · exact ⟨_, rfl⟩
  · intro key
    unfold inputDone
    split
    · exact Or.inl rfl
    · split
      · simp only []
        split
        · exact Or.inr ⟨lit "[red]You: [white]" ++ s.inputText, by simp only [List.append_assoc]⟩
        · exact Or.inl rfl
      · exact Or.inl rfl
  · intro ht hn hc hline
    rw [hv, shown_append_of_line_end _ _ hline, (shown_displayWritten msg hc).1 ht hn]
  · intro ht hc hline
    rw [hv, shown_append_of_line_end _ _ hline, (shown_displayWritten msg hc).2 ht]
  · intro ht name
    unfold displayMessage displayWritten
    simp only [if_neg ht]

/-- Instances of C5 (amended): after the echo of a line of the user, the server notice
`Alice joined` is shown as `Alice joined`; on an empty view the message `hello` of
Bob is shown as `Bob: hello`, and a message of an unknown type as its content. -/
theorem C5_display_line_witness :
    TextView.shown
        (displayMessage ⟨[], lit "server_message", lit "Alice", [], lit "Alice joined"⟩
          { Sys.init with view := lit "[red]You: [white]hi\n" }).view =
      lit "You: hi\nAlice joined\n" ∧
    TextView.shown
        (displayMessage ⟨lit "1", lit "user_message", lit "Bob", lit "lobby", lit "hello"⟩
          Sys.init).view = lit "Bob: hello\n" ∧
    TextView.shown
        (displayMessage ⟨[], lit "ping", lit "Bob", [], lit "42"⟩ Sys.init).view = lit "42\n" :=
  ⟨((C5_display_line ⟨[], lit "server_message", lit "Alice", [], lit "Alice joined"⟩
      { Sys.init with view := lit "[red]You: [white]hi\n" }).2.2.2.2.1 (by decide)
      (by unfold Plain; decide) (Or.inr ⟨lit "[red]You: [white]hi", by decide⟩)).trans
      (by decide),
   (C5_display_line ⟨lit "1", lit "user_message", lit "Bob", lit "lobby", lit "hello"⟩
      Sys.init).2.2.2.1 (by decide) (by unfold Plain; decide) (by unfold Plain; decide)
      (Or.inl rfl),
   (C5_display_line ⟨[], lit "ping", lit "Bob", [], lit "42"⟩
      Sys.init).2.2.2.2.1 (by decide) (by unfold Plain; decide) (Or.inl rfl)⟩

/-- C6 (divergence of the code): no run of the inbound loop and no run of the outbound loop
changes `done`.  On a read error the inbound loop logs, closes the connection and
returns; on a write error the outbound loop logs and returns; in both cases `done`
is as unfired as before. -/
theorem C6_transport_error_never_fires_done :
    (∀ (rs : List ReadResult) (s : Sys), (readPump rs s).1.done = s.done) ∧
    (∀ (ws : List (Nat × Bool)) (s : Sys), (writePump ws s).1.done = s.done) ∧
    readPump [ReadResult.err] Sys.init =
      ({ Sys.init with log := [LogLine.readError], connClosed := true }, Status.returned) ∧
    writePump [(0, false)] { Sys.init with send := [lit "x"] } =
      ({ Sys.init with log := [LogLine.writeError] }, Status.returned) :=
  ⟨readPump_done, writePump_done, by decide, by decide⟩

/-- C9 (divergence of the code): when the dial fails, `main` logs the error and goes on to
`defer client.conn.Close()` with `client` nil: it ends in a nil pointer dereference of
`client` (exit status 2), before `NewUI`, the pumps and `handleMessages`. -/
theorem C9_connect_failure_dereferences_nil (user : Option User) (server addr : Bytes) :
    main false user server addr (fun _ => false) =
      ([MainStep.getUserInfo, MainStep.newClient, MainStep.log LogLine.dialError,
        MainStep.log LogLine.newClientError], Ending.nilDereference (lit "client")) ∧
    (main false user server addr (fun _ => false)).2.exitCode = some 2 := by
  constructor <;> simp [main, NewClient, Ending.exitCode]

/-- C10 (the claim fails): for the message `a` and the width `-2^63` the difference
`totalWidth - len(message)` is below `-1`, yet the difference Go computes wraps to
`2^63 - 1`, the padding is `2^62 - 1`, not negative, and the call faults in
`strings.Repeat` with no output.  For the width `2^62` the difference is above `-1` and
the call faults as well: the padding is above `maxAlloc`. -/
theorem C10_printCentered_counterexample :
    (-(2 ^ 63) : Int) - ((lit "a").length : Int) < -1 ∧
    padding (lit "a") (-(2 ^ 63)) = 2 ^ 62 - 1 ∧
    0 ≤ padding (lit "a") (-(2 ^ 63)) ∧
    printCentered (2 ^ 64) (lit "a") (-(2 ^ 63)) = none ∧
    -1 ≤ (2 ^ 62 : Int) - ((lit "a").length : Int) ∧
    0 ≤ padding (lit "a") (2 ^ 62) ∧
    printCentered (2 ^ 64) (lit "a") (2 ^ 62) = none := by
  decide

/-- C10 (amended): the padding is not negative exactly when the difference Go computes,
`totalWidth - len(message)` wrapped to 64 bits (the exact difference whenever that fits
an `int`), is at least `-1`.  In that case the call prints that many spaces followed by
the message when the padding is at most `maxAlloc` and the run has memory for the
string, and faults otherwise; when the wrapped difference is below `-1` the count is
negative and the call faults. -/
theorem C10_printCentered_padding (room : Nat) (message : Bytes) (totalWidth : Int) :
    (0 ≤ padding message totalWidth ↔ -1 ≤ wrapInt (totalWidth - message.length)) ∧
    (-(2 ^ 63) ≤ totalWidth - message.length → totalWidth - message.length < 2 ^ 63 →
      wrapInt (totalWidth - message.length) = totalWidth - message.length) ∧
    (-1 ≤ wrapInt (totalWidth - message.length) →
      printCentered room message totalWidth =
        if (padding message totalWidth).toNat ≤ maxAlloc ∧
            (padding message totalWidth).toNat + message.length ≤ room then
          some (List.replicate (padding message totalWidth).toNat 0x20 ++ message)
        else none) ∧
    (wrapInt (totalWidth - message.length) < -1 →
      padding message totalWidth < 0 ∧ printCentered room message totalWidth = none) := by
  have hiff := tdiv_two_nonneg_iff (wrapInt (totalWidth - message.length))
  refine ⟨hiff, wrapInt_of_range _, ?_, ?_⟩
  · intro h
    have hp0 : 0 ≤ padding message totalWidth := hiff.mpr h
    have hp1 : padding message totalWidth < 2 ^ 62 + 1 := by
      unfold padding
      have hlt := wrapInt_lt (totalWidth - message.length)
      rcases (show wrapInt (totalWidth - message.length) = -1 ∨
          0 ≤ wrapInt (totalWidth - message.length) by omega) with h1 | h1
      · rw [h1]
        decide
      · have := tdiv_two_le _ h1
        omega
    unfold printCentered
    rw [stringsRepeat_space room _ hp0 hp1]
    generalize padding message totalWidth = p at hp0 hp1
    obtain ⟨n, rfl⟩ := Int.eq_ofNat_of_zero_le hp0
    simp only [Int.toNat_ofNat, List.length_append, List.length_replicate]
    by_cases h2 : 2 ≤ (n : Int) ∧ (maxAlloc < n ∨ room < n)
    · rw [if_pos h2]
      rw [if_neg]
      intro hh
      rcases h2.2 with h3 | h3 <;> omega
    · rw [if_neg h2]
      simp only [List.length_append, List.length_replicate]
      by_cases h3 : room < n + message.length
      · rw [if_pos h3, if_neg]
        intro hh
        omega
      · rw [if_neg h3, if_pos]
        refine ⟨?_, by omega⟩
        by_contra h4
        have h5 : ¬ (2 ≤ (n : Int)) := fun h6 => h2 ⟨h6, Or.inl (by omega)⟩
        have : n ≤ 1 := by omega
        unfold maxAlloc at h4
        have : (1 : Nat) ≤ 2 ^ 48 := Nat.one_le_two_pow
        omega
  · intro h
    have hneg : padding message totalWidth < 0 := by
      by_contra hh
      have := hiff.mp (show 0 ≤ padding message totalWidth by omega)
      omega
    refine ⟨hneg, ?_⟩
    unfold printCentered stringsRepeat
    rw [if_neg (by omega), if_neg (by omega), if_pos hneg]

/-- Instances of C10 (amended): in a terminal of width 8 the message `abc` is printed
after two spaces; at width 2 it is printed with no padding; at width 1 the call
faults. -/
theorem C10_printCentered_padding_witness :
    printCentered 100 (lit "abc") 8 = some (lit "  abc") ∧
    printCentered 100 (lit "abc") 2 = some (lit "abc") ∧
    printCentered 100 (lit "abc") 1 = none :=
  ⟨((C10_printCentered_padding 100 (lit "abc") 8).2.2.1 (by decide)).trans (by decide),
   ((C10_printCentered_padding 100 (lit "abc") 2).2.2.1 (by decide)).trans (by decide),
   ((C10_printCentered_padding 100 (lit "abc") 1).2.2.2 (by decide)).2⟩

end ChatClient
